import Mathlib

set_option maxRecDepth 4000

/- Verification of the scene segmentation and subtitle timing engine
   (text_processor.py, subtitles.py, conte.py of the repository).

   Modelling conventions:
   - Python strings are `List Char` (`Str`); `len` is `List.length` (both count
     unicode codepoints).
   - Python floats are exact rationals `ℚ`; `int(x)` is truncation toward zero
     (`pyInt`); `//` on non-negative ints is `Nat` division.
   - Functions that raise `ValueError` return `Except String _`.
   - Loops that consume at least one character per iteration are written with an
     explicit fuel argument equal to the input length, so that every definition
     is structurally recursive and kernel-computable. -/

abbrev Str := List Char

/-- Unicode whitespace as recognized by Python's `str.strip`, `str.split` and
the regex class `\s` (the full Python set for `str` inputs). -/
def isSpace (c : Char) : Bool :=
  let n := c.toNat
  n == 0x20 || (0x09 ≤ n && n ≤ 0x0d) || (0x1c ≤ n && n ≤ 0x1f) ||
  n == 0x85 || n == 0xa0 || n == 0x1680 || (0x2000 ≤ n && n ≤ 0x200a) ||
  n == 0x2028 || n == 0x2029 || n == 0x202f || n == 0x205f || n == 0x3000

/-- Python `str.strip()`: remove leading and trailing whitespace. -/
def stripChars (s : Str) : Str :=
  ((s.dropWhile isSpace).reverse.dropWhile isSpace).reverse

/-- A string containing at least one non-whitespace character. -/
def hasContent (s : Str) : Bool := s.any (fun c => !(isSpace c))

/-- Helper for `splitWs`: Python `str.split()` with no separator splits on
whitespace runs and discards empty pieces; `acc` is the current word reversed. -/
def splitWsAux : Str → Str → List Str
  | [], acc => if acc = [] then [] else [acc.reverse]
  | c :: rest, acc =>
    if isSpace c then
      if acc = [] then splitWsAux rest [] else acc.reverse :: splitWsAux rest []
    else splitWsAux rest (c :: acc)

/-- Python `text.split()` (no argument). -/
def splitWs (s : Str) : List Str := splitWsAux s []

/-- Python `sep.join(parts)` for a one-character separator. -/
def joinSep (sep : Char) : List Str → Str
  | [] => []
  | [w] => w
  | w :: ws => w ++ sep :: joinSep sep ws

/-- Membership in the `_CJK_RANGES` character class of text_processor.py
(CJK punctuation, hiragana, katakana, CJK unified and compatibility
ideographs). -/
def isCJKChar (c : Char) : Bool :=
  let n := c.toNat
  (0x3000 ≤ n && n ≤ 0x303f) || (0x3040 ≤ n && n ≤ 0x309f) ||
  (0x30a0 ≤ n && n ≤ 0x30ff) || (0x4e00 ≤ n && n ≤ 0x9fff) ||
  (0xf900 ≤ n && n ≤ 0xfaff)

/-- `_is_cjk_dominant`: CJK codepoints strictly exceed 20% of the length. -/
def _is_cjk_dominant (text : Str) : Bool :=
  decide ((((text.filter isCJKChar).length : ℚ)) > (text.length : ℚ) * 0.2)

def MIN_SEGMENT_CHARS : ℕ := 30
def MIN_SEGMENT_WORDS : ℕ := 10

/-- `_segment_length`: chars for CJK text, whitespace-delimited words otherwise. -/
def _segment_length (text : Str) : ℕ :=
  if _is_cjk_dominant text then (stripChars text).length else (splitWs text).length

/-- `_min_segment_size`: language-dependent minimum segment size. -/
def _min_segment_size (text : Str) : ℕ :=
  if _is_cjk_dominant text then MIN_SEGMENT_CHARS else MIN_SEGMENT_WORDS

/-- `_JP_BREAK_CHARS` of text_processor.py. -/
def jpBreakChars : Str := "はがをにでともへのてただるいす".toList

/-- `_NO_BREAK_BEFORE` of text_processor.py. -/
def noBreakBefore : Str := "ーッャュョァィゥェォ」）".toList

/-- `_NO_BREAK_PAIRS` of text_processor.py. -/
def noBreakPairs : List (Char × Char) := [('す', 'る'), ('い', 'う'), ('で', 'し')]

/-- One candidate test of the loop body of `_find_jp_break` at index `i`
(character indexing is total via `getD`; all call sites have `i ≤ 20 < len`). -/
def breakOkAt (text : Str) (i : ℕ) : Bool :=
  jpBreakChars.contains (text.getD (i - 1) ' ') &&
  !(decide (i < text.length) && noBreakBefore.contains (text.getD i ' ')) &&
  !(decide (i < text.length) &&
    noBreakPairs.contains (text.getD (i - 1) ' ', text.getD i ' '))

/-- The `for i in range(max_pos, min_search, -1)` search of `_find_jp_break`,
counting `i` down; returns the first admissible break index. -/
def breakScan (text : Str) (min_search : ℕ) : ℕ → Option ℕ
  | 0 => none
  | i + 1 =>
    if i + 1 ≤ min_search then none
    else if breakOkAt text (i + 1) then some (i + 1)
    else breakScan text min_search i

/-- `_find_jp_break`: best break position near `max_pos`, falling back to
`max_pos` itself. -/
def _find_jp_break (text : Str) (max_pos : ℕ) : ℕ :=
  let min_search := max (max_pos * 2 / 5) 4
  (breakScan text min_search max_pos).getD max_pos

/-- Punctuation set of the lookbehind split `(?<=[。、！？，])`. -/
def jpSplitPunct : Str := "。、！？，".toList

/-- Helper for `splitAfterPunct`; `acc` is the current piece reversed. -/
def splitAfterPunctAux : Str → Str → List Str
  | [], acc => [acc.reverse]
  | c :: rest, acc =>
    if jpSplitPunct.contains c then (acc.reverse ++ [c]) :: splitAfterPunctAux rest []
    else splitAfterPunctAux rest (c :: acc)

/-- `re.split(r"(?<=[。、！？，])", clean)`: split immediately after any of the
punctuation marks, keeping the mark with the preceding piece. -/
def splitAfterPunct (s : Str) : List Str := splitAfterPunctAux s []

/-- The `while len(part) > max_chars` re-splitting loop of `_split_for_subtitles`
(max_chars = 20). Fuel-structural: each iteration removes at least one
character, so `fuel = part.length` suffices. -/
def resplitFuel : ℕ → Str → List Str
  | 0, part => if part = [] then [] else [part]
  | fuel + 1, part =>
    if 20 < part.length then
      let pos := _find_jp_break part 20
      part.take pos :: resplitFuel fuel (part.drop pos)
    else if part = [] then [] else [part]

def resplit (part : Str) : List Str := resplitFuel part.length part

/-- Body of the merge-short-chunks pass of `_split_for_subtitles`
(merge a chunk of ≤ 3 chars into the previous one if the result stays ≤ 22). -/
def mergeStep (merged : List Str) (c : Str) : List Str :=
  if c.length ≤ 3 ∧ (merged.getLastD []).length + c.length ≤ 22 then
    merged.dropLast ++ [merged.getLastD [] ++ c]
  else merged ++ [c]

/-- The `if len(chunks) > 1` merge pass of `_split_for_subtitles`. -/
def mergeShortChunks : List Str → List Str
  | [] => []
  | c0 :: rest => rest.foldl mergeStep [c0]

/-- `_split_for_subtitles`: CJK text is cleaned, split on punctuation,
re-split at natural break points, and short chunks are merged; other text is
split on whitespace. -/
def _split_for_subtitles (text : Str) : List Str :=
  if _is_cjk_dominant text then
    let clean := text.filter (fun c => !(isSpace c))
    let parts := (splitAfterPunct clean).filter (fun p => !p.isEmpty)
    let chunks := (parts.map resplit).flatten
    if 1 < chunks.length then mergeShortChunks chunks else chunks
  else splitWs text

/-- The Scene dataclass of text_processor.py. -/
structure Scene where
  index : ℕ
  narration_text : Str
  image_prompt : Str
  tts_text : Str
  words : List Str
  stat_overlay : Option Str
  library_image : Option Str
  deriving DecidableEq

/-- Scene construction including `__post_init__`: empty `tts_text` defaults to
the narration, empty `words` defaults to the subtitle chunking of the
narration. -/
def mkScene (index : ℕ) (narration_text : Str) (image_prompt : Str)
    (tts_text : Str) (words : List Str)
    (stat_overlay : Option Str) (library_image : Option Str) : Scene :=
  { index := index
    narration_text := narration_text
    image_prompt := image_prompt
    tts_text := if tts_text = [] then narration_text else tts_text
    words := if words = [] then _split_for_subtitles narration_text else words
    stat_overlay := stat_overlay
    library_image := library_image }

def DEFAULT_WPM : ℚ := 150
def DEFAULT_CPM : ℚ := 350

/-- `estimate_duration`: speaking time from characters-per-minute (CJK) or
words-per-minute (otherwise). -/
def estimate_duration (text : Str) : ℚ :=
  if _is_cjk_dominant text then
    (((text.filter (fun c => !(isSpace c))).length : ℚ) / DEFAULT_CPM) * 60
  else (((splitWs text).length : ℚ) / DEFAULT_WPM) * 60

/-- Python `int(q)` on a float: truncation toward zero. -/
def pyInt (q : ℚ) : ℤ := if q < 0 then -(Int.floor (-q)) else Int.floor q

/-- Python slice `l[:k]` for a possibly negative `k`. -/
def pyTake {α : Type} (k : ℤ) (l : List α) : List α :=
  if k < 0 then l.take (((l.length : ℤ) + k).toNat) else l.take k.toNat

/-- Python `s.rfind(c)` for a single character: highest index of `c` in `s`,
or -1 when absent. -/
def rfindChar (s : Str) (c : Char) : ℤ :=
  match s with
  | [] => -1
  | a :: rest =>
    let r := rfindChar rest c
    if 0 ≤ r then r + 1 else if a == c then 0 else -1

/-- `truncate_to_duration`: slice the text to the unit budget of
`max_duration`, then snap back to the last sentence-ending mark found by the
four `rfind` calls (`。`, `.`, `！`, `？`) when it lies past the midpoint. -/
def truncate_to_duration (text : Str) (max_duration : ℚ) : Str :=
  if estimate_duration text ≤ max_duration then text
  else
    let truncated :=
      if _is_cjk_dominant text then
        pyTake (pyInt ((max_duration / 60) * DEFAULT_CPM)) text
      else
        joinSep ' ' (pyTake (pyInt ((max_duration / 60) * DEFAULT_WPM)) (splitWs text))
    let last_period :=
      max (max (rfindChar truncated '。') (rfindChar truncated '.'))
        (max (rfindChar truncated '！') (rfindChar truncated '？'))
    if ((truncated.length / 2 : ℕ) : ℤ) < last_period then
      pyTake (last_period + 1) truncated
    else truncated

/-- Length of the leading whitespace run (`\s*` matched greedily). -/
def wsRunLen (s : Str) : ℕ := (s.takeWhile isSpace).length

/-- Index of the last newline in `l`, if any. -/
def lastNewlineIdx (l : Str) : Option ℕ :=
  match l.reverse.findIdx? (fun c => c == '\n') with
  | some j => some (l.length - 1 - j)
  | none => none

/-- Scanner for `re.split(r"\n\s*\n", t)`: a separator is a newline followed by
the greedily matched whitespace run whose last newline closes the pattern.
`acc` is the current piece reversed; fuel equals the remaining length. -/
def splitParasFuel : ℕ → Str → Str → List Str
  | 0, s, acc => [acc.reverse ++ s]
  | _ + 1, [], acc => [acc.reverse]
  | fuel + 1, c :: rest, acc =>
    if c == '\n' then
      match lastNewlineIdx (rest.take (wsRunLen rest)) with
      | some j => acc.reverse :: splitParasFuel fuel (rest.drop (j + 1)) []
      | none => splitParasFuel fuel rest (c :: acc)
    else splitParasFuel fuel rest (c :: acc)

/-- `_split_into_paragraphs`: blank-line split, pieces stripped, empties
dropped. -/
def _split_into_paragraphs (text : Str) : List Str :=
  let t := stripChars text
  ((splitParasFuel t.length t []).map stripChars).filter (fun p => !p.isEmpty)

/-- Punctuation class of the sentence-split lookbehind `[。．.！!？?\n]`. -/
def sentencePunct : Str := "。．.！!？?\n".toList

/-- Scanner for `re.split(r"(?<=[。．.！!？?\n])\s*", t)`: split after every
mark of the class, consuming the following whitespace run. -/
def splitSentencesFuel : ℕ → Str → Str → List Str
  | 0, s, acc => [acc.reverse ++ s]
  | _ + 1, [], acc => [acc.reverse]
  | fuel + 1, c :: rest, acc =>
    if sentencePunct.contains c then
      (acc.reverse ++ [c]) :: splitSentencesFuel fuel (rest.drop (wsRunLen rest)) []
    else splitSentencesFuel fuel rest (c :: acc)

/-- `_split_into_sentences`: sentence split, pieces stripped, empties dropped. -/
def _split_into_sentences (text : Str) : List Str :=
  let t := stripChars text
  ((splitSentencesFuel t.length t []).map stripChars).filter (fun p => !p.isEmpty)

/-- Loop body of `_merge_short_segments`: extend the last accumulated segment
(newline-joined) while it is below the minimum size. -/
def mergeSegStep (min_size : ℕ) (merged : List Str) (seg : Str) : List Str :=
  if _segment_length (merged.getLastD []) < min_size then
    merged.dropLast ++ [merged.getLastD [] ++ '\n' :: seg]
  else merged ++ [seg]

/-- `_merge_short_segments`: merge short segments forward, then fold a final
short segment into its predecessor. -/
def _merge_short_segments : List Str → List Str
  | [] => []
  | s0 :: rest =>
    let min_size := _min_segment_size ((s0 :: rest).flatten)
    let merged := rest.foldl (mergeSegStep min_size) [s0]
    if 1 < merged.length ∧ _segment_length (merged.getLastD []) < min_size then
      merged.dropLast.dropLast ++
        [merged.dropLast.getLastD [] ++ '\n' :: merged.getLastD []]
    else merged

/-- `IMAGE_STYLE_PREFIX` of text_processor.py (renamed for this development). -/
def IMAGE_STYLE_DEFAULT : Str :=
  "Cinematic vertical composition, vibrant colors, high detail, dramatic lighting. ".toList

/-- `generate_image_prompt`; a falsy (absent) style prefix selects the module
default. -/
def generate_image_prompt (narration_text : Str) (image_style : Option Str) : Str :=
  (image_style.getD IMAGE_STYLE_DEFAULT) ++
    "Do not include any text, words, or letters in the image. Visual scene inspired by: ".toList ++
    narration_text.take 300

/-- Python slice `l[a:b]` for `0 ≤ a ≤ b`. -/
def pySlice {α : Type} (l : List α) (a b : ℕ) : List α := (l.drop a).take (b - a)

/-- The segment pipeline of `split_into_scenes` (applied to already stripped
text): truncate, split into paragraphs, fall back to sentences, fall back to
the whole text, group into at most 6 evenly spaced slices, merge short
segments. -/
def sceneSegments (text : Str) (max_duration : ℚ) : List Str :=
  let text := truncate_to_duration text max_duration
  let segments := _split_into_paragraphs text
  let segments :=
    if segments.length < 3 then (segments.map _split_into_sentences).flatten
    else segments
  let segments := if segments.length < 2 then [text] else segments
  let target_scenes := min 6 (max 3 segments.length)
  let segments :=
    if target_scenes < segments.length then
      (List.range target_scenes).map (fun (i : ℕ) =>
        joinSep '\n' (pySlice segments
          ((pyInt ((i : ℚ) * ((segments.length : ℚ) / (target_scenes : ℚ)))).toNat)
          ((pyInt (((i : ℚ) + 1) * ((segments.length : ℚ) / (target_scenes : ℚ)))).toNat)))
    else segments
  _merge_short_segments segments

/-- The `for i, segment in enumerate(segments)` Scene construction loop. -/
def scenesFromSegs (image_style : Option Str) : ℕ → List Str → List Scene
  | _, [] => []
  | i, seg :: rest =>
    mkScene i seg (generate_image_prompt seg image_style) [] [] none none ::
      scenesFromSegs image_style (i + 1) rest

/-- `split_into_scenes`: validate non-empty input, then run the segment
pipeline and build Scenes with sequential indices. -/
def split_into_scenes (text : Str) (max_duration : ℚ) (image_style : Option Str) :
    Except String (List Scene) :=
  let t := stripChars text
  if t = [] then Except.error "Input text is empty"
  else Except.ok (scenesFromSegs image_style 0 (sceneSegments t max_duration))

/-- The SubtitleEntry dataclass of subtitles.py (times in seconds). -/
structure SubtitleEntry where
  index : ℕ
  start_time : ℚ
  end_time : ℚ
  text : Str
  deriving DecidableEq

def dummyEntry : SubtitleEntry := { index := 0, start_time := 0, end_time := 0, text := [] }

/-- The duration allocation of `generate_subtitles` for one scene: a 1-second
floor plus character-weighted distribution of the remainder, or an equal share
when the floor does not fit. -/
def chunkDurations (char_counts : List ℕ) (scene_duration : ℚ) : List ℚ :=
  let total_chars := char_counts.sum
  let n_chunks := char_counts.length
  let min_display : ℚ := 1
  let guaranteed := min_display * (n_chunks : ℚ)
  let remaining := scene_duration - guaranteed
  if 0 < remaining ∧ 0 < total_chars then
    char_counts.map (fun (count : ℕ) =>
      min_display + ((count : ℚ) / (total_chars : ℚ)) * remaining)
  else
    List.replicate n_chunks (scene_duration / (n_chunks : ℚ))

/-- The `for i in range(0, len(words), words_per_subtitle)` grouping loop of
`generate_subtitles` with the default `words_per_subtitle = 6`
(fuel-structural; each step consumes at least one word). -/
def groupWordsFuel : ℕ → List Str → List Str
  | _, [] => []
  | 0, ws => [joinSep ' ' (ws.take 6)]
  | fuel + 1, ws => joinSep ' ' (ws.take 6) :: groupWordsFuel fuel (ws.drop 6)

def groupWords (ws : List Str) : List Str := groupWordsFuel ws.length ws

/-- Chunk selection of `generate_subtitles`: CJK scenes use `scene.words`
directly, others group words six at a time. -/
def sceneChunks (scene : Scene) : List Str :=
  if _is_cjk_dominant scene.narration_text then scene.words
  else groupWords scene.words

/-- The per-scene entry emission loop of `generate_subtitles`:
`start = cumulative_time + sum(durations[:i])`, `end = start + durations[i]`. -/
def entriesFor (chunks : List Str) (durations : List ℚ)
    (subtitle_index : ℕ) (cumulative_time : ℚ) : List SubtitleEntry :=
  (List.range chunks.length).map (fun i =>
    { index := subtitle_index + i
      start_time := cumulative_time + (durations.take i).sum
      end_time := cumulative_time + (durations.take i).sum + durations.getD i 0
      text := chunks.getD i [] })

/-- The scene loop of `generate_subtitles`, carrying the running subtitle
index and cumulative time; scenes with empty `words` only advance the clock. -/
def generate_subtitlesAux : List (Scene × ℚ) → ℕ → ℚ → List SubtitleEntry
  | [], _, _ => []
  | (scene, scene_duration) :: rest, subtitle_index, cumulative_time =>
    if scene.words = [] then
      generate_subtitlesAux rest subtitle_index (cumulative_time + scene_duration)
    else
      let chunks := sceneChunks scene
      let durations := chunkDurations (chunks.map List.length) scene_duration
      entriesFor chunks durations subtitle_index cumulative_time ++
        generate_subtitlesAux rest (subtitle_index + chunks.length)
          (cumulative_time + scene_duration)

/-- `generate_subtitles`: scenes are paired positionally with their audio
durations (zip truncates to the shorter list). -/
def generate_subtitles (scenes : List Scene) (audio_durations : List ℚ) :
    List SubtitleEntry :=
  generate_subtitlesAux (scenes.zip audio_durations) 1 0

/-- The same loop as `generate_subtitlesAux`, keeping each scene's emitted
entries as a separate group (skipped scenes give an empty group). -/
def sceneGroups : List (Scene × ℚ) → ℕ → ℚ → List (List SubtitleEntry)
  | [], _, _ => []
  | (scene, scene_duration) :: rest, subtitle_index, cumulative_time =>
    if scene.words = [] then
      [] :: sceneGroups rest subtitle_index (cumulative_time + scene_duration)
    else
      let chunks := sceneChunks scene
      let durations := chunkDurations (chunks.map List.length) scene_duration
      entriesFor chunks durations subtitle_index cumulative_time ::
        sceneGroups rest (subtitle_index + chunks.length)
          (cumulative_time + scene_duration)

/-- Entries chained from time `t`: each entry starts no earlier than the
running clock, does not end before it starts, and hands its end time to the
next entry (time-ordered and non-overlapping). -/
def Chained : ℚ → List SubtitleEntry → Prop
  | _, [] => True
  | t, e :: es => t ≤ e.start_time ∧ e.start_time ≤ e.end_time ∧ Chained e.end_time es

/-- End time of the last entry, or the initial clock `t` for no entries. -/
def lastEndD (t : ℚ) (es : List SubtitleEntry) : ℚ :=
  match es.getLast? with
  | some e => e.end_time
  | none => t

/-- Substring occurrence test (`pat in s` for Python strings). -/
def startsWithSeq : Str → Str → Bool
  | [], _ => true
  | _ :: _, [] => false
  | p :: ps, c :: cs => p == c && startsWithSeq ps cs

def containsSeq (pat : Str) : Str → Bool
  | [] => startsWithSeq pat []
  | c :: rest => startsWithSeq pat (c :: rest) || containsSeq pat rest

/-- Length of the lazy group `(.+?)(?=\n\**|$)` (DOTALL) matched against `t`:
the least `k ≥ 1` at which the lookahead (a following `\n**` or the end of the
string) succeeds; for nonempty `t`, `k = t.length` always qualifies. -/
def lazyCaptureLen (t : Str) : ℕ :=
  match (List.range' 1 t.length).find?
      (fun k => (t.drop k).isEmpty || startsWithSeq "\n**".toList (t.drop k)) with
  | some k => k
  | none => t.length

/-- Match of `\s*(.+?)(?=\n\**|$)` against the text following the colon: the
greedy `\s*` takes the whole whitespace run when a character is left for the
lazy group, and backtracks one character when the rest is all whitespace;
it fails only on an empty rest. -/
def captureAfterColon (s : Str) : Option Str :=
  let r := wsRunLen s
  if r < s.length then some ((s.drop r).take (lazyCaptureLen (s.drop r)))
  else if 0 < s.length then some (s.drop (s.length - 1))
  else none

/-- `re.search` of the field pattern `\*\*LABEL\*\*\s*[:：]\s*(.+?)(?=\n\**|$)`
(DOTALL): scan left to right for the label, then require a colon after the
whitespace run and a nonempty value. -/
def searchLabeledFrom (label : Str) : Str → Option Str
  | [] => none
  | c :: rest =>
    let pat := "**".toList ++ label ++ "**".toList
    let here :=
      if startsWithSeq pat (c :: rest) then
        let after := (c :: rest).drop pat.length
        let r1 := wsRunLen after
        if after.getD r1 ' ' == ':' || after.getD r1 ' ' == '：' then
          captureAfterColon (after.drop (r1 + 1))
        else none
      else none
    match here with
    | some g => some g
    | none => searchLabeledFrom label rest

/-- `_extract_required_narration` of conte.py: missing or blank narration
raises a ValueError naming the one-based scene number. -/
def _extract_required_narration (block : Str) (scene_number : ℕ) : Except String Str :=
  match searchLabeledFrom "ナレーション".toList block with
  | some g =>
    if stripChars g = [] then
      Except.error ("Narration not found in scene " ++ toString scene_number)
    else Except.ok (stripChars g)
  | none => Except.error ("Narration not found in scene " ++ toString scene_number)

/-- Shared logic of `_extract_visual`, `_extract_stat_overlay` and
`_extract_library_image`: optional labeled field, blank treated as absent. -/
def extractOptionalLabeled (label : Str) (block : Str) : Option Str :=
  match searchLabeledFrom label block with
  | some g => if stripChars g = [] then none else some (stripChars g)
  | none => none

/-- Python `\w` restricted to the character classes occurring here: ASCII
alphanumerics, underscore, and the CJK ranges. -/
def isWordChar (c : Char) : Bool := c.isAlphanum || c == '_' || isCJKChar c

/-- A regex word boundary `\b` at position `i`, when the preceding character is
a word character. -/
def wordBoundaryAt (text : Str) (i : ℕ) : Bool :=
  decide (text.length ≤ i) || !(isWordChar (text.getD i ' '))

/-- End of the line starting at or containing position `p` (`.*$` without
DOTALL stops before the next newline). -/
def lineEndFrom (text : Str) (p : ℕ) : ℕ :=
  p + ((text.drop p).takeWhile (fun c => c != '\n')).length

/-- Match of `_SCENE_HEADER_PATTERN` = `^##\s*(?:シーン|Scene)\b.*$`
(MULTILINE) anchored at position `p`; returns the match end. The greedy `\s*`
is equivalent to taking the maximal whitespace run, since neither alternative
starts with whitespace. -/
def sceneHeaderEndAt (text : Str) (p : ℕ) : Option ℕ :=
  if (p == 0 || text.getD (p - 1) ' ' == '\n') && text.getD p 'x' == '#' &&
      text.getD (p + 1) 'x' == '#' then
    let q := p + 2 + wsRunLen (text.drop (p + 2))
    if startsWithSeq "シーン".toList (text.drop q) && wordBoundaryAt text (q + 3) then
      some (lineEndFrom text (q + 3))
    else if startsWithSeq "Scene".toList (text.drop q) && wordBoundaryAt text (q + 5) then
      some (lineEndFrom text (q + 5))
    else none
  else none

/-- `finditer` of the scene header pattern: all match (start, end) pairs in
order. Matches span single lines anchored at `##`, so they never overlap. -/
def sceneHeaderMatches (text : Str) : List (ℕ × ℕ) :=
  (List.range text.length).filterMap
    (fun p => (sceneHeaderEndAt text p).map (fun e => (p, e)))

/-- Match test of `_ANY_H2_PATTERN` = `^##\s` (MULTILINE) at position `p`. -/
def isH2At (text : Str) (p : ℕ) : Bool :=
  (p == 0 || text.getD (p - 1) ' ' == '\n') && text.getD p 'x' == '#' &&
    text.getD (p + 1) 'x' == '#' && isSpace (text.getD (p + 2) 'x')

/-- `all_h2_starts`: positions of all `^##\s` matches, in ascending order. -/
def h2Starts (text : Str) : List ℕ :=
  (List.range text.length).filter (fun p => isH2At text p)

/-- The `for h2_start in all_h2_starts: if h2_start > match.start(): end = ...`
loop of parse_conte: first (hence least) H2 start after the scene header start,
or the end of the document. -/
def blockEndFor (text : Str) (mstart : ℕ) : ℕ :=
  ((h2Starts text).find? (fun p => decide (mstart < p))).getD text.length

def NO_TEXT_SUFFIX : Str :=
  "Do not include any text, words, or letters in the image.".toList

/-- One iteration of the parse_conte scene loop (scene `i`, zero-based; the
non-fatal warnings of the source are not modelled). -/
def parseConteScene (text : Str) (style : Option Str) (i : ℕ) (mstart mend : ℕ) :
    Except String Scene :=
  let block := stripChars (pySlice text mend (blockEndFor text mstart))
  match _extract_required_narration block (i + 1) with
  | Except.error e => Except.error e
  | Except.ok narration_text =>
    let visual_text := extractOptionalLabeled "映像".toList block
    let stat_overlay := extractOptionalLabeled "数字".toList block
    let library_image := extractOptionalLabeled "画像".toList block
    let image_prompt :=
      match visual_text with
      | some v => (style.getD IMAGE_STYLE_DEFAULT) ++ v ++ " ".toList ++ NO_TEXT_SUFFIX
      | none => generate_image_prompt narration_text style
    Except.ok (mkScene i narration_text image_prompt [] [] stat_overlay library_image)

def parseScenesAux (text : Str) (style : Option Str) :
    ℕ → List (ℕ × ℕ) → Except String (List Scene)
  | _, [] => Except.ok []
  | i, (mstart, mend) :: rest =>
    match parseConteScene text style i mstart mend with
    | Except.error e => Except.error e
    | Except.ok sc =>
      match parseScenesAux text style (i + 1) rest with
      | Except.error e => Except.error e
      | Except.ok scs => Except.ok (sc :: scs)

/-- `parse_conte` of conte.py (the unreachable trailing `if not scenes` check
is omitted: a nonempty match list yields a nonempty scene list). -/
def parse_conte (text : Str) (style : Option Str) : Except String (List Scene) :=
  let ms := sceneHeaderMatches text
  if ms.isEmpty then Except.error "No scenes found in conte markdown"
  else parseScenesAux text style 0 ms

/-- Index of the last occurrence in `s` of any mark in `marks`, if any
(the "last occurrence of any terminal punctuation mark" of the spec). -/
def lastMarkIdx (marks : Str) : Str → Option ℕ
  | [] => none
  | a :: rest =>
    match lastMarkIdx marks rest with
    | some j => some (j + 1)
    | none => if marks.contains a then some 0 else none

/-- Modelled from the spec: `truncate_to_duration` as §4.2 words it, with the
terminal punctuation set as an explicit parameter — no-op when the estimate
fits; otherwise slice to the unit budget, find the last occurrence of any mark
of the set in the slice, and cut there inclusive when it is past the midpoint,
else return the raw slice. -/
def truncateBySpec (marks : Str) (text : Str) (max_duration : ℚ) : Str :=
  if estimate_duration text ≤ max_duration then text
  else
    let sliced :=
      if _is_cjk_dominant text then
        pyTake (pyInt ((max_duration / 60) * DEFAULT_CPM)) text
      else
        joinSep ' ' (pyTake (pyInt ((max_duration / 60) * DEFAULT_WPM)) (splitWs text))
    match lastMarkIdx marks sliced with
    | some i => if sliced.length / 2 < i then sliced.take (i + 1) else sliced
    | none => sliced

def dummyScene : Scene :=
  { index := 0, narration_text := [], image_prompt := [], tts_text := [],
    words := [], stat_overlay := none, library_image := none }

/-- Concrete two-scene input of the C2 boundary alignment example: each scene's
words hold a single chunk. -/
def exSceneA : Scene := mkScene 0 "hello".toList [] [] [] none none

def exSceneB : Scene := mkScene 1 "world".toList [] [] [] none none

deriving instance DecidableEq for Except

/- ### General helper lemmas -/

theorem zip_take_left (a : List α) (b : List β) : (a.take b.length).zip b = a.zip b := by
  induction a generalizing b with
  | nil => simp
  | cons x a ih =>
    cases b with
    | nil => simp
    | cons y b => simp [List.zip_cons_cons, ih]

theorem zip_take_right (a : List α) (b : List β) : a.zip (b.take a.length) = a.zip b := by
  induction a generalizing b with
  | nil => simp
  | cons x a ih =>
    cases b with
    | nil => simp
    | cons y b => simp [List.zip_cons_cons, ih]

theorem take_succ_sum (ds : List ℚ) (k : ℕ) :
    (ds.take (k + 1)).sum = (ds.take k).sum + ds.getD k 0 := by
  induction ds generalizing k with
  | nil => simp
  | cons d ds ih =>
    cases k with
    | zero => simp
    | succ k => simp only [List.take_succ_cons, List.sum_cons, List.getD_cons_succ, ih]; ring

/- ### C8: the break-point search stays in (min_search, max_pos] -/

theorem breakScan_bound (text : Str) (ms : ℕ) :
    ∀ i r, breakScan text ms i = some r → ms < r ∧ r ≤ i := by
  intro i
  induction i with
  | zero => intro r h; simp [breakScan] at h
  | succ i ih =>
    intro r h
    by_cases hle : i + 1 ≤ ms
    · simp [breakScan, hle] at h
    · by_cases hok : breakOkAt text (i + 1) = true
      · simp [breakScan, hle, hok] at h
        omega
      · simp [breakScan, hle, hok] at h
        rcases ih r h with ⟨h1, h2⟩
        exact ⟨h1, by omega⟩

theorem find_jp_break_bound (text : Str) :
    8 < _find_jp_break text 20 ∧ _find_jp_break text 20 ≤ 20 := by
  have h8 : max (20 * 2 / 5) 4 = 8 := by norm_num
  simp only [_find_jp_break, h8]
  cases h : breakScan text 8 20 with
  | none => simp
  | some r =>
    have hb := breakScan_bound text 8 20 r h
    simpa using hb

/-- C8: for text longer than 20, the Japanese break-point search returns an
index in (max(2·max_pos/5, 4), max_pos] = (8, 20] — hence ≥ 5 > 0 — so each
re-splitting step strictly shortens the remaining piece and the CJK chunker
terminates. -/
theorem C8_find_jp_break_progress (text : Str) (h : 20 < text.length) :
    (max (20 * 2 / 5) 4 < _find_jp_break text 20 ∧ _find_jp_break text 20 ≤ 20) ∧
    (text.drop (_find_jp_break text 20)).length < text.length := by
  have h8 : max (20 * 2 / 5) 4 = 8 := by norm_num
  have hb := find_jp_break_bound text
  refine ⟨⟨by omega, hb.2⟩, ?_⟩
  simp only [List.length_drop]
  omega

theorem C8_find_jp_break_progress_witness :
    20 < (List.replicate 25 'あ').length ∧
      ((max (20 * 2 / 5) 4 < _find_jp_break (List.replicate 25 'あ') 20 ∧
        _find_jp_break (List.replicate 25 'あ') 20 ≤ 20) ∧
      ((List.replicate 25 'あ').drop (_find_jp_break (List.replicate 25 'あ') 20)).length <
        (List.replicate 25 'あ').length) :=
  ⟨by decide, C8_find_jp_break_progress (List.replicate 25 'あ') (by decide)⟩

/- ### C9: positional pairing ignores surplus scenes or durations -/

/-- C9: `generate_subtitles` pairs scenes and durations positionally via `zip`;
surplus elements of the longer list are silently ignored (the output equals
the output on the common prefix) and no error is raised (the function is
total). -/
theorem C9_zip_truncation (scenes : List Scene) (durs : List ℚ) :
    generate_subtitles scenes durs =
        generate_subtitles (scenes.take durs.length) durs ∧
      generate_subtitles scenes durs =
        generate_subtitles scenes (durs.take scenes.length) := by
  unfold generate_subtitles
  rw [zip_take_left, zip_take_right]
  exact ⟨rfl, rfl⟩

/- ### Newline-join normal form, for C10 -/

def restJoin (sep : Char) (ws : List Str) : Str := (ws.map (fun s => sep :: s)).flatten

theorem joinSep_eq (sep : Char) (w : Str) (ws : List Str) :
    joinSep sep (w :: ws) = w ++ restJoin sep ws := by
  induction ws generalizing w with
  | nil => simp [joinSep, restJoin]
  | cons b t ih => simp [joinSep, restJoin, ih b]

theorem restJoin_append (sep : Char) (a b : List Str) :
    restJoin sep (a ++ b) = restJoin sep a ++ restJoin sep b := by
  simp [restJoin]

theorem dropLast_append_getLastD (l : List Str) (hl : l ≠ []) :
    l.dropLast ++ [l.getLastD []] = l := by
  cases l using List.reverseRecOn with
  | nil => simp at hl
  | append_singleton A y => simp [List.dropLast_concat, List.getLastD_concat]

theorem joinSep_append_singleton (sep : Char) (l : List Str) (x : Str) (hl : l ≠ []) :
    joinSep sep (l ++ [x]) = joinSep sep l ++ sep :: x := by
  cases l with
  | nil => simp at hl
  | cons w ws =>
    rw [List.cons_append, joinSep_eq, joinSep_eq, restJoin_append]
    simp [restJoin]

theorem joinSep_extend_last (sep : Char) (l : List Str) (y : Str) (hl : l ≠ []) :
    joinSep sep (l.dropLast ++ [l.getLastD [] ++ y]) = joinSep sep l ++ y := by
  cases l using List.reverseRecOn with
  | nil => simp at hl
  | append_singleton A x =>
    rw [List.dropLast_concat, List.getLastD_concat]
    cases A with
    | nil => simp [joinSep]
    | cons w ws =>
      rw [joinSep_append_singleton sep _ _ (by simp), joinSep_append_singleton sep _ _ (by simp)]
      simp

theorem mergeSeg_foldl_join (m : ℕ) (rest : List Str) :
    ∀ acc, acc ≠ [] →
      rest.foldl (mergeSegStep m) acc ≠ [] ∧
      joinSep '\n' (rest.foldl (mergeSegStep m) acc) =
        joinSep '\n' acc ++ restJoin '\n' rest := by
  induction rest with
  | nil => intro acc ha; simp [ha, restJoin]
  | cons seg rest ih =>
    intro acc ha
    have hstep : mergeSegStep m acc seg ≠ [] ∧
        joinSep '\n' (mergeSegStep m acc seg) = joinSep '\n' acc ++ '\n' :: seg := by
      unfold mergeSegStep
      by_cases hc : _segment_length (acc.getLastD []) < m
      · simp only [if_pos hc]
        exact ⟨by simp, joinSep_extend_last '\n' acc ('\n' :: seg) ha⟩
      · simp only [if_neg hc]
        exact ⟨by simp, joinSep_append_singleton '\n' acc seg ha⟩
    rcases ih (mergeSegStep m acc seg) hstep.1 with ⟨h1, h2⟩
    refine ⟨by simpa [List.foldl_cons] using h1, ?_⟩
    simp only [List.foldl_cons]
    rw [h2, hstep.2]
    simp [restJoin]

/-- The final fold of `_merge_short_segments` (merging the last two segments
with a newline) preserves the newline join and nonemptiness. -/
theorem mergeSeg_final_join (merged : List Str) (h : 1 < merged.length) :
    merged.dropLast.dropLast ++
        [merged.dropLast.getLastD [] ++ '\n' :: merged.getLastD []] ≠ [] ∧
      joinSep '\n' (merged.dropLast.dropLast ++
        [merged.dropLast.getLastD [] ++ '\n' :: merged.getLastD []]) =
      joinSep '\n' merged := by
  cases merged using List.reverseRecOn with
  | nil => simp at h
  | append_singleton A y =>
    have hA : A ≠ [] := by
      intro hnil
      rw [hnil] at h
      simp at h
    rw [List.dropLast_concat, List.getLastD_concat]
    refine ⟨by simp, ?_⟩
    rw [joinSep_extend_last '\n' A ('\n' :: y) hA, joinSep_append_singleton '\n' A y hA]

/-- C10: `_merge_short_segments` only relocates segment boundaries: the
newline join of its output equals the newline join of its input, and a
non-empty input yields a non-empty output. -/
theorem C10_merge_short_segments_content (segs : List Str) (h : segs ≠ []) :
    joinSep '\n' (_merge_short_segments segs) = joinSep '\n' segs ∧
      _merge_short_segments segs ≠ [] := by
  cases segs with
  | nil => simp at h
  | cons s0 rest =>
    unfold _merge_short_segments
    set m := _min_segment_size ((s0 :: rest).flatten) with hm
    have hfold := mergeSeg_foldl_join m rest [s0] (by simp)
    set merged := rest.foldl (mergeSegStep m) [s0] with hmerged
    have hone : joinSep '\n' [s0] = s0 := by simp [joinSep]
    have hjoin : joinSep '\n' merged = joinSep '\n' (s0 :: rest) := by
      rw [hfold.2, hone, joinSep_eq]
    by_cases hc : 1 < merged.length ∧ _segment_length (merged.getLastD []) < m
    · simp only [if_pos hc]
      have hfin := mergeSeg_final_join merged hc.1
      exact ⟨by rw [hfin.2, hjoin], hfin.1⟩
    · simp only [if_neg hc]
      exact ⟨hjoin, hfold.1⟩

theorem C10_merge_short_segments_content_witness :
    joinSep '\n' (_merge_short_segments ["ab".toList, "cd".toList]) =
        joinSep '\n' ["ab".toList, "cd".toList] ∧
      _merge_short_segments ["ab".toList, "cd".toList] ≠ [] :=
  C10_merge_short_segments_content ["ab".toList, "cd".toList] (by decide)

/- ### C1: duration allocation for a single scene -/

/-- Unfolding lemma for `chunkDurations` with the local variables expanded. -/
theorem chunkDurations_eq (counts : List ℕ) (d : ℚ) :
    chunkDurations counts d =
      if 0 < d - 1 * (counts.length : ℚ) ∧ 0 < counts.sum then
        counts.map (fun (count : ℕ) =>
          1 + ((count : ℚ) / (counts.sum : ℚ)) * (d - 1 * (counts.length : ℚ)))
      else List.replicate counts.length (d / (counts.length : ℚ)) := rfl

theorem sum_map_weighted (l : List ℕ) (T R : ℚ) :
    (l.map (fun (c : ℕ) => 1 + ((c : ℚ) / T) * R)).sum =
      (l.length : ℚ) + ((l.sum : ℚ) / T) * R := by
  induction l with
  | nil => simp
  | cons a t ih =>
    simp only [List.map_cons, List.sum_cons, List.length_cons, ih, Nat.cast_add, Nat.cast_one]
    ring

theorem chunkDurations_length (counts : List ℕ) (d : ℚ) :
    (chunkDurations counts d).length = counts.length := by
  rw [chunkDurations_eq]
  by_cases hc : 0 < d - 1 * (counts.length : ℚ) ∧ 0 < counts.sum
  · rw [if_pos hc, List.length_map]
  · rw [if_neg hc, List.length_replicate]

theorem chunkDurations_sum (counts : List ℕ) (d : ℚ) (h : counts ≠ []) :
    (chunkDurations counts d).sum = d := by
  rw [chunkDurations_eq]
  by_cases hc : 0 < d - 1 * (counts.length : ℚ) ∧ 0 < counts.sum
  · rw [if_pos hc, sum_map_weighted]
    have hT : ((counts.sum : ℕ) : ℚ) ≠ 0 := by
      have h2 := hc.2
      positivity
    rw [div_self hT]
    ring
  · rw [if_neg hc, List.sum_replicate, nsmul_eq_mul]
    have hn : ((counts.length : ℕ) : ℚ) ≠ 0 := by
      have hp : 0 < counts.length := List.length_pos.mpr h
      positivity
    field_simp

theorem chunkDurations_floor (counts : List ℕ) (d : ℚ)
    (hc : 0 < d - 1 * (counts.length : ℚ) ∧ 0 < counts.sum) :
    ∀ x ∈ chunkDurations counts d, 1 ≤ x := by
  intro x hx
  rw [chunkDurations_eq, if_pos hc] at hx
  rcases List.mem_map.mp hx with ⟨c, _, rfl⟩
  have h1 : (0 : ℚ) ≤ ((c : ℚ) / ((counts.sum : ℕ) : ℚ)) * (d - 1 * (counts.length : ℚ)) :=
    mul_nonneg (div_nonneg (Nat.cast_nonneg c) (Nat.cast_nonneg counts.sum)) (le_of_lt hc.1)
  linarith

theorem chunkDurations_nonneg (counts : List ℕ) (d : ℚ) (hd : 0 ≤ d) :
    ∀ x ∈ chunkDurations counts d, 0 ≤ x := by
  intro x hx
  by_cases hc : 0 < d - 1 * (counts.length : ℚ) ∧ 0 < counts.sum
  · have h1 := chunkDurations_floor counts d hc x hx
    linarith
  · rw [chunkDurations_eq, if_neg hc] at hx
    rcases List.mem_replicate.mp hx with ⟨-, rfl⟩
    positivity

theorem groupWordsFuel_ne_nil (fuel : ℕ) (ws : List Str) (h : ws ≠ []) :
    groupWordsFuel fuel ws ≠ [] := by
  cases ws with
  | nil => simp at h
  | cons w t =>
    cases fuel with
    | zero => simp [groupWordsFuel]
    | succ f => simp [groupWordsFuel]

theorem sceneChunks_ne_nil (scene : Scene) (h : scene.words ≠ []) :
    sceneChunks scene ≠ [] := by
  unfold sceneChunks
  by_cases hc : _is_cjk_dominant scene.narration_text = true
  · simpa [hc] using h
  · simp only [Bool.not_eq_true] at hc
    simp only [hc, Bool.false_eq_true, if_false]
    exact groupWordsFuel_ne_nil _ _ h

/-- C1: for a scene with non-empty `words` and audio duration `d`, with `n`
chunks of total character length `total`: when `d - 1·n > 0` and `total > 0`,
each chunk gets `1 + (len/total)·(d - 1·n)` seconds, hence at least 1 second;
otherwise each chunk gets exactly `d/n`, positive whenever `d > 0`; in both
cases the allocated durations sum to `d` exactly. -/
theorem C1_duration_allocation (scene : Scene) (d : ℚ) (h : scene.words ≠ []) :
    sceneChunks scene ≠ [] ∧
    (chunkDurations ((sceneChunks scene).map List.length) d).sum = d ∧
    (0 < d - 1 * ((((sceneChunks scene).map List.length).length : ℚ)) ∧
        0 < ((sceneChunks scene).map List.length).sum →
      chunkDurations ((sceneChunks scene).map List.length) d =
        ((sceneChunks scene).map List.length).map (fun (count : ℕ) =>
          1 + ((count : ℚ) / ((((sceneChunks scene).map List.length).sum : ℚ))) *
            (d - 1 * ((((sceneChunks scene).map List.length).length : ℚ)))) ∧
      ∀ x ∈ chunkDurations ((sceneChunks scene).map List.length) d, 1 ≤ x) ∧
    (¬ (0 < d - 1 * ((((sceneChunks scene).map List.length).length : ℚ)) ∧
        0 < ((sceneChunks scene).map List.length).sum) →
      chunkDurations ((sceneChunks scene).map List.length) d =
        List.replicate ((sceneChunks scene).map List.length).length
          (d / ((((sceneChunks scene).map List.length).length : ℚ))) ∧
      (0 < d → ∀ x ∈ chunkDurations ((sceneChunks scene).map List.length) d, 0 < x)) := by
  have hch := sceneChunks_ne_nil scene h
  have hcounts : (sceneChunks scene).map List.length ≠ [] := by simpa using hch
  refine ⟨hch, chunkDurations_sum _ d hcounts, ?_, ?_⟩
  · intro hc
    exact ⟨by rw [chunkDurations_eq, if_pos hc], chunkDurations_floor _ d hc⟩
  · intro hc
    refine ⟨by rw [chunkDurations_eq, if_neg hc], ?_⟩
    intro hd x hx
    rw [chunkDurations_eq, if_neg hc] at hx
    rcases List.mem_replicate.mp hx with ⟨-, rfl⟩
    have hn : (0 : ℚ) < (((sceneChunks scene).map List.length).length : ℚ) := by
      have hp : 0 < ((sceneChunks scene).map List.length).length :=
        List.length_pos.mpr hcounts
      exact_mod_cast hp
    positivity

theorem C1_duration_allocation_witness :
    (chunkDurations ((sceneChunks (mkScene 0 "hello".toList [] [] [] none none)).map
      List.length) 2).sum = 2 :=
  (C1_duration_allocation (mkScene 0 "hello".toList [] [] [] none none) 2
    (by with_unfolding_all decide)).2.1

/- ### C4: CJK chunk length invariant and the merge rule -/

theorem resplitFuel_le20 (fuel : ℕ) :
    ∀ part : Str, part.length ≤ fuel → ∀ c ∈ resplitFuel fuel part, c.length ≤ 20 := by
  induction fuel with
  | zero =>
    intro part hlen c hc
    have hnil : part = [] := List.length_eq_zero.mp (Nat.le_zero.mp hlen)
    subst hnil
    simp [resplitFuel] at hc
  | succ fuel ih =>
    intro part hlen c hc
    by_cases hlong : 20 < part.length
    · have hb := find_jp_break_bound part
      simp only [resplitFuel, if_pos hlong, List.mem_cons] at hc
      rcases hc with rfl | hc
      · simp only [List.length_take]
        omega
      · refine ih (part.drop (_find_jp_break part 20)) ?_ c hc
        simp only [List.length_drop]
        omega
    · simp only [resplitFuel, if_neg hlong] at hc
      by_cases hnil : part = []
      · simp [hnil] at hc
      · simp only [if_neg hnil, List.mem_singleton] at hc
        subst hc
        omega

theorem resplit_le20 (part : Str) : ∀ c ∈ resplit part, c.length ≤ 20 :=
  resplitFuel_le20 part.length part le_rfl

theorem mergeStep_preserves_le22 (acc : List Str) (c : Str)
    (hacc : ∀ x ∈ acc, x.length ≤ 22) (hc : c.length ≤ 20) :
    ∀ x ∈ mergeStep acc c, x.length ≤ 22 := by
  intro x hx
  unfold mergeStep at hx
  by_cases hcond : c.length ≤ 3 ∧ (acc.getLastD []).length + c.length ≤ 22
  · rw [if_pos hcond] at hx
    rcases List.mem_append.mp hx with hx | hx
    · exact hacc x (List.dropLast_subset acc hx)
    · rcases List.mem_singleton.mp hx with rfl
      simp only [List.length_append]
      exact hcond.2
  · rw [if_neg hcond] at hx
    rcases List.mem_append.mp hx with hx | hx
    · exact hacc x hx
    · rcases List.mem_singleton.mp hx with rfl
      omega

theorem mergeFold_le22 (rest : List Str) :
    ∀ acc, (∀ x ∈ acc, x.length ≤ 22) → (∀ x ∈ rest, x.length ≤ 20) →
      ∀ x ∈ rest.foldl mergeStep acc, x.length ≤ 22 := by
  induction rest with
  | nil => intro acc hacc _ x hx; exact hacc x hx
  | cons c rest ih =>
    intro acc hacc hrest x hx
    simp only [List.foldl_cons] at hx
    refine ih (mergeStep acc c) ?_ (fun y hy => hrest y (List.mem_cons_of_mem c hy)) x hx
    exact mergeStep_preserves_le22 acc c hacc (hrest c (List.mem_cons_self c rest))

theorem chunks_le20 (text : Str) :
    ∀ c ∈ (((splitAfterPunct (text.filter (fun ch => !(isSpace ch)))).filter
        (fun p => !p.isEmpty)).map resplit).flatten, c.length ≤ 20 := by
  intro c hc
  rcases List.mem_flatten.mp hc with ⟨l, hl, hcl⟩
  rcases List.mem_map.mp hl with ⟨part, _, rfl⟩
  exact resplit_le20 part c hcl

theorem mergeShort_le22 (chunks : List Str) (h20 : ∀ x ∈ chunks, x.length ≤ 20) :
    ∀ c ∈ (if 1 < chunks.length then mergeShortChunks chunks else chunks),
      c.length ≤ 22 := by
  intro c hc
  by_cases hlen : 1 < chunks.length
  · rw [if_pos hlen] at hc
    cases chunks with
    | nil => simp [mergeShortChunks] at hc
    | cons c0 rest =>
      unfold mergeShortChunks at hc
      refine mergeFold_le22 rest [c0] ?_ ?_ c hc
      · intro x hx
        rw [List.mem_singleton] at hx
        have h0 := h20 c0 (List.mem_cons_self c0 rest)
        rw [hx]
        omega
      · intro x hx
        have h0 := h20 x (List.mem_cons_of_mem c0 hx)
        omega
  · rw [if_neg hlen] at hc
    have h0 := h20 c hc
    omega

/-- C4: every chunk the subtitle chunker produces for CJK-dominant text has
length at most 22; during the merge pass a chunk of length at most 3 is folded
into the previous chunk exactly when the combined length stays at most 22,
and otherwise appended standalone. -/
theorem C4_cjk_chunk_bound (text : Str) (h : _is_cjk_dominant text = true) :
    (∀ c ∈ _split_for_subtitles text, c.length ≤ 22) ∧
    (∀ acc c, acc ≠ [] →
      ((c.length ≤ 3 ∧ (acc.getLastD []).length + c.length ≤ 22) →
        mergeStep acc c = acc.dropLast ++ [acc.getLastD [] ++ c]) ∧
      (¬ (c.length ≤ 3 ∧ (acc.getLastD []).length + c.length ≤ 22) →
        mergeStep acc c = acc ++ [c])) := by
  constructor
  · intro c hc
    unfold _split_for_subtitles at hc
    rw [if_pos h] at hc
    exact mergeShort_le22 _ (chunks_le20 text) c hc
  · intro acc c _
    constructor
    · intro hcond
      unfold mergeStep
      rw [if_pos hcond]
    · intro hcond
      unfold mergeStep
      rw [if_neg hcond]

theorem C4_cjk_chunk_bound_witness :
    _is_cjk_dominant "こんにちは、世界。".toList = true ∧
      ∀ c ∈ _split_for_subtitles "こんにちは、世界。".toList, c.length ≤ 22 :=
  ⟨by with_unfolding_all decide,
    (C4_cjk_chunk_bound "こんにちは、世界。".toList (by with_unfolding_all decide)).1⟩

/- ### C3: truncation refines the spec only for the code's punctuation set -/

theorem rfindChar_ge (s : Str) (c : Char) : -1 ≤ rfindChar s c := by
  induction s with
  | nil => simp [rfindChar]
  | cons a rest ih =>
    unfold rfindChar
    by_cases h0 : 0 ≤ rfindChar rest c
    · rw [if_pos h0]; omega
    · rw [if_neg h0]
      by_cases ha : (a == c) = true
      · rw [if_pos ha]; omega
      · rw [if_neg ha]

theorem rfindChar_cons (a : Char) (rest : Str) (c : Char) :
    rfindChar (a :: rest) c =
      if 0 ≤ rfindChar rest c then rfindChar rest c + 1
      else if a == c then 0 else -1 := rfl

/-- The `max` of `rfindChar` over a list of marks, as the code's nested `max`
of the four `rfind` results generalizes. -/
def maxRfind (marks : Str) (s : Str) : ℤ :=
  marks.foldr (fun c acc => max (rfindChar s c) acc) (-1)

theorem maxRfind_nil (s : Str) : maxRfind [] s = -1 := rfl

theorem maxRfind_cons (c : Char) (ms : Str) (s : Str) :
    maxRfind (c :: ms) s = max (rfindChar s c) (maxRfind ms s) := rfl

theorem maxRfind_ge (marks s : Str) : -1 ≤ maxRfind marks s := by
  induction marks with
  | nil => simp [maxRfind_nil]
  | cons c ms ih =>
    rw [maxRfind_cons]
    exact le_trans ih (le_max_right _ _)

theorem maxRfind_nil_str (marks : Str) : maxRfind marks [] = -1 := by
  induction marks with
  | nil => rfl
  | cons c ms ih =>
    rw [maxRfind_cons, ih]
    simp [rfindChar]

theorem beq_char_comm (a c : Char) : (a == c) = (c == a) := by
  by_cases h : a = c
  · rw [h]
  · have h1 : (a == c) = false := beq_eq_false_iff_ne.mpr h
    have h2 : (c == a) = false := beq_eq_false_iff_ne.mpr (Ne.symm h)
    rw [h1, h2]

theorem maxRfind_cons_char (marks : Str) (a : Char) (rest : Str) :
    maxRfind marks (a :: rest) =
      if 0 ≤ maxRfind marks rest then maxRfind marks rest + 1
      else if marks.contains a then 0 else -1 := by
  induction marks with
  | nil => simp [maxRfind_nil]
  | cons c ms ih =>
    have hrge := rfindChar_ge rest c
    have hmge := maxRfind_ge ms rest
    rw [maxRfind_cons, maxRfind_cons, rfindChar_cons, ih]
    have hcontains : (c :: ms).contains a = ((a == c) || ms.contains a) := by
      rw [List.contains_cons, beq_char_comm]
    rw [hcontains]
    by_cases h1 : 0 ≤ rfindChar rest c
    · by_cases h2 : 0 ≤ maxRfind ms rest
      · rw [if_pos h1, if_pos h2, if_pos (le_trans h1 (le_max_left _ _)),
          max_add_add_right]
      · rw [if_pos h1, if_neg h2, if_pos (le_trans h1 (le_max_left _ _))]
        have hml : max (rfindChar rest c) (maxRfind ms rest) = rfindChar rest c :=
          max_eq_left (by omega)
        rw [hml]
        by_cases h3 : ms.contains a = true
        · rw [if_pos h3]
          exact max_eq_left (by omega)
        · rw [if_neg h3]
          exact max_eq_left (by omega)
    · by_cases h2 : 0 ≤ maxRfind ms rest
      · rw [if_neg h1, if_pos h2, if_pos (le_trans h2 (le_max_right _ _))]
        have hmr : max (rfindChar rest c) (maxRfind ms rest) = maxRfind ms rest :=
          max_eq_right (by omega)
        rw [hmr]
        by_cases h3 : (a == c) = true
        · rw [if_pos h3]
          exact max_eq_right (by omega)
        · rw [if_neg h3]
          exact max_eq_right (by omega)
      · have hmax : max (rfindChar rest c) (maxRfind ms rest) < 0 :=
          max_lt (by omega) (by omega)
        rw [if_neg h1, if_neg h2, if_neg (not_le.mpr hmax)]
        by_cases h3 : (a == c) = true
        · rw [if_pos h3]
          by_cases h4 : ms.contains a = true
          · rw [if_pos h4]
            simp [h3, h4]
          · rw [if_neg h4]
            simp [h3, h4]
        · rw [if_neg h3]
          by_cases h4 : ms.contains a = true
          · rw [if_pos h4]
            simp at h4
            simp [h3, h4]
          · rw [if_neg h4]
            simp at h4
            simp [h3, h4]

theorem lastMarkIdx_cons (marks : Str) (a : Char) (rest : Str) :
    lastMarkIdx marks (a :: rest) =
      match lastMarkIdx marks rest with
      | some j => some (j + 1)
      | none => if marks.contains a then some 0 else none := rfl

theorem lastMarkIdx_maxRfind (marks s : Str) :
    (lastMarkIdx marks s).elim (-1 : ℤ) (fun j => (j : ℤ)) = maxRfind marks s := by
  induction s with
  | nil => simp [lastMarkIdx, maxRfind_nil_str]
  | cons a rest ih =>
    rw [maxRfind_cons_char, lastMarkIdx_cons]
    cases hrest : lastMarkIdx marks rest with
    | some j =>
      rw [hrest] at ih
      simp only [Option.elim_some] at ih
      simp only [Option.elim_some]
      have hge : (0 : ℤ) ≤ maxRfind marks rest := ih ▸ Int.natCast_nonneg j
      rw [if_pos hge, ← ih]
      push_cast
      ring
    | none =>
      rw [hrest] at ih
      simp only [Option.elim_none] at ih
      by_cases hc : marks.contains a = true
      · rw [if_pos hc]
        rw [if_neg (by rw [← ih]; norm_num), if_pos (by simpa using hc)]
        simp
      · rw [if_neg hc]
        rw [if_neg (by rw [← ih]; norm_num), if_neg (by simpa using hc)]
        simp

theorem marks4_toList : "。.！？".toList = ['。', '.', '！', '？'] := rfl

/-- The code's nested `max` of four `rfind` results equals the folded
`maxRfind` over the same four marks. -/
theorem code_max_eq_maxRfind (s : Str) :
    max (max (rfindChar s '。') (rfindChar s '.'))
        (max (rfindChar s '！') (rfindChar s '？')) =
      maxRfind "。.！？".toList s := by
  rw [marks4_toList, maxRfind_cons, maxRfind_cons, maxRfind_cons, maxRfind_cons,
    maxRfind_nil]
  rw [max_eq_left (rfindChar_ge s '？'), max_assoc]

/-- The sentence-boundary snap of `truncate_to_duration` (maximum of four
`rfind` results, midpoint test, inclusive cut) computes the same string as the
spec's last-occurrence description over the same four marks. -/
theorem code_snap_eq_spec_snap (s : Str) :
    (if ((s.length / 2 : ℕ) : ℤ) <
        max (max (rfindChar s '。') (rfindChar s '.'))
          (max (rfindChar s '！') (rfindChar s '？')) then
      pyTake (max (max (rfindChar s '。') (rfindChar s '.'))
          (max (rfindChar s '！') (rfindChar s '？')) + 1) s
    else s) =
    (match lastMarkIdx "。.！？".toList s with
      | some i => if s.length / 2 < i then s.take (i + 1) else s
      | none => s) := by
  have hbr := lastMarkIdx_maxRfind "。.！？".toList s
  rw [code_max_eq_maxRfind]
  cases h : lastMarkIdx "。.！？".toList s with
  | none =>
    rw [h] at hbr
    simp only [Option.elim_none] at hbr
    rw [← hbr]
    show (if ((s.length / 2 : ℕ) : ℤ) < -1 then pyTake (-1 + 1) s else s) = s
    rw [if_neg (by omega)]
  | some i =>
    rw [h] at hbr
    simp only [Option.elim_some] at hbr
    rw [← hbr]
    show (if ((s.length / 2 : ℕ) : ℤ) < (i : ℤ) then pyTake ((i : ℤ) + 1) s else s) =
      if s.length / 2 < i then s.take (i + 1) else s
    by_cases hmid : s.length / 2 < i
    · rw [if_pos (by exact_mod_cast hmid), if_pos hmid]
      unfold pyTake
      rw [if_neg (by omega)]
      congr 1
    · rw [if_neg (by exact_mod_cast hmid)]
      rw [if_neg hmid]

/-- C3 (amended): `truncate_to_duration` behaves exactly as the spec describes
the slicing and boundary-snap, but with the terminal punctuation set
`{。, ., ！, ？}` searched by the code — the ASCII marks `!` and `?` are not in
the searched set. -/
theorem C3_truncate_matches_spec_with_code_marks (text : Str) (max_duration : ℚ) :
    truncate_to_duration text max_duration =
      truncateBySpec "。.！？".toList text max_duration := by
  unfold truncate_to_duration truncateBySpec
  by_cases hfit : estimate_duration text ≤ max_duration
  · rw [if_pos hfit, if_pos hfit]
  · rw [if_neg hfit, if_neg hfit]
    exact code_snap_eq_spec_snap _

/-- C3 counterexample: on `"a b c d! e f"` with a 2-second budget the claim's
punctuation set (including ASCII `!`) predicts a cut at the `!` (index 7, past
the midpoint 5 of the 10-character slice), but the code returns the raw slice:
the fixed set of the claim does not match the code. -/
theorem C3_counterexample :
    estimate_duration "a b c d! e f".toList > 2 ∧
      truncateBySpec "。！？.!?".toList "a b c d! e f".toList 2 = "a b c d!".toList ∧
      truncate_to_duration "a b c d! e f".toList 2 = "a b c d! e".toList ∧
      "a b c d!".toList ≠ "a b c d! e".toList := by
  refine ⟨?_, ?_, ?_, ?_⟩ <;> with_unfolding_all decide

/- ### C6: the missing-narration error -/

theorem searchLabeled_none_of_not_contains (label : Str) (s : Str)
    (h : containsSeq ("**".toList ++ label ++ "**".toList) s = false) :
    searchLabeledFrom label s = none := by
  induction s with
  | nil => rfl
  | cons c rest ih =>
    unfold containsSeq at h
    rw [Bool.or_eq_false_iff] at h
    unfold searchLabeledFrom
    simp only [h.1, Bool.false_eq_true, if_false]
    exact ih h.2

/-- C6 (amended): the parser raises the missing-narration error naming the
one-based scene number whenever the narration label is absent from the scene's
block (it may additionally raise when the label is present with a blank
value), and not when the narration value is merely short: the one-chunk input
`"## シーン 1\n**ナレーション**: テスト\n"` parses without error. -/
theorem C6_missing_narration_error :
    (∀ block n, containsSeq "**ナレーション**".toList block = false →
      _extract_required_narration block n =
        Except.error ("Narration not found in scene " ++ toString n)) ∧
    (parse_conte "## シーン 1\n**ナレーション**: テスト\n".toList none).isOk = true := by
  constructor
  · intro block n h
    have hpat : "**ナレーション**".toList =
        "**".toList ++ "ナレーション".toList ++ "**".toList := rfl
    rw [hpat] at h
    have hs := searchLabeled_none_of_not_contains "ナレーション".toList block h
    unfold _extract_required_narration
    rw [hs]
  · decide

theorem C6_missing_narration_error_witness :
    _extract_required_narration "abc".toList 1 =
      Except.error ("Narration not found in scene " ++ toString 1) :=
  C6_missing_narration_error.1 "abc".toList 1 (by decide)

/-- C6 counterexample: with the narration label present but no value
(`"## シーン 1\n**ナレーション**:\n"`), the parser still raises the
missing-narration error, so the error is not raised *exactly* when the label
is absent. -/
theorem C6_counterexample :
    containsSeq "**ナレーション**".toList "## シーン 1\n**ナレーション**:\n".toList = true ∧
      parse_conte "## シーン 1\n**ナレーション**:\n".toList none =
        Except.error "Narration not found in scene 1" := by
  constructor <;> decide

/- ### C7: block boundaries close at the next H2 header of any kind -/

theorem isH2At_lt_length (text : Str) (p : ℕ) (h : isH2At text p = true) :
    p < text.length := by
  by_contra hlen
  push_neg at hlen
  unfold isH2At at h
  simp only [Bool.and_eq_true, beq_iff_eq] at h
  rcases h with ⟨⟨⟨-, h2⟩, -⟩, -⟩
  rw [List.getD_eq_default] at h2
  · exact absurd h2 (by decide)
  · exact hlen

theorem mem_h2Starts (text : Str) (p : ℕ) :
    p ∈ h2Starts text ↔ isH2At text p = true := by
  unfold h2Starts
  rw [List.mem_filter, List.mem_range]
  constructor
  · exact fun h => h.2
  · exact fun h => ⟨isH2At_lt_length text p h, h⟩

theorem h2Starts_sorted (text : Str) : (h2Starts text).Pairwise (· < ·) :=
  (List.pairwise_lt_range text.length).filter _

theorem find?_min_of_sorted (f : ℕ → Bool) :
    ∀ l : List ℕ, l.Pairwise (· < ·) →
      ∀ x, l.find? f = some x → ∀ y ∈ l, f y = true → x ≤ y := by
  intro l
  induction l with
  | nil => intro _ x hx; simp [List.find?] at hx
  | cons a t ih =>
    intro hp x hx y hy hf
    rw [List.find?_cons] at hx
    by_cases hfa : f a = true
    · rw [hfa] at hx
      simp only [Option.some.injEq] at hx
      subst hx
      rcases List.mem_cons.mp hy with rfl | hyt
      · exact le_refl y
      · exact le_of_lt ((List.pairwise_cons.mp hp).1 y hyt)
    · rw [Bool.not_eq_true] at hfa
      rw [hfa] at hx
      rcases List.mem_cons.mp hy with rfl | hyt
      · exact absurd hf (by rw [hfa]; simp)
      · exact ih (List.pairwise_cons.mp hp).2 x hx y hyt hf

def conteDemoDoc : Str :=
  "## シーン 1\n**ナレーション**: こんにちは。\n## まとめ\nその他テキスト\n".toList

/-- C7: the block of each scene runs from the end of its header to the first
`^##\s` match (an H2 header of any kind) after the header start, or to the end
of the document when none follows; consequently the trailing non-scene section
`## まとめ` of the demo document is excluded from the final scene's
narration. -/
theorem C7_block_boundaries :
    (∀ text mstart,
      (blockEndFor text mstart = text.length ∧
        ∀ p, isH2At text p = true → ¬ mstart < p) ∨
      (isH2At text (blockEndFor text mstart) = true ∧ mstart < blockEndFor text mstart ∧
        ∀ p, isH2At text p = true → mstart < p → blockEndFor text mstart ≤ p)) ∧
    ((parse_conte conteDemoDoc none).toOption.map
        (fun scs => scs.map (fun sc => sc.narration_text)) =
          some ["こんにちは。".toList] ∧
      containsSeq "まとめ".toList "こんにちは。".toList = false) := by
  constructor
  · intro text mstart
    unfold blockEndFor
    cases hf : (h2Starts text).find? (fun p => decide (mstart < p)) with
    | none =>
      left
      refine ⟨rfl, ?_⟩
      intro p hp hlt
      have hmem := (mem_h2Starts text p).mpr hp
      have hfalse := List.find?_eq_none.mp hf p hmem
      simp only [decide_eq_true_eq] at hfalse
      exact hfalse hlt
    | some q =>
      right
      have hq := List.find?_some hf
      simp only [decide_eq_true_eq] at hq
      have hqmem := List.mem_of_find?_eq_some hf
      refine ⟨(mem_h2Starts text q).mp hqmem, hq, ?_⟩
      intro p hp hlt
      exact find?_min_of_sorted _ (h2Starts text) (h2Starts_sorted text) q hf p
        ((mem_h2Starts text p).mpr hp) (by simpa using hlt)
  · constructor
    · decide
    · decide

theorem C7_block_boundaries_witness :
    blockEndFor conteDemoDoc 0 = conteDemoDoc.length ∨
      isH2At conteDemoDoc (blockEndFor conteDemoDoc 0) = true :=
  (C7_block_boundaries.1 conteDemoDoc 0).elim (fun h => Or.inl h.1) (fun h => Or.inr h.1)

/- ### C2: global timing order of generate_subtitles -/

theorem entriesFor_cons (c : Str) (cs : List Str) (d : ℚ) (ds : List ℚ) (idx : ℕ) (t : ℚ) :
    entriesFor (c :: cs) (d :: ds) idx t =
      { index := idx, start_time := t, end_time := t + d, text := c } ::
        entriesFor cs ds (idx + 1) (t + d) := by
  unfold entriesFor
  rw [List.length_cons, List.range_succ_eq_map, List.map_cons, List.map_map]
  congr 1
  · simp
  · refine List.map_congr_left ?_
    intro i _
    simp only [Function.comp_apply, List.take_succ_cons, List.sum_cons,
      List.getD_cons_succ, SubtitleEntry.mk.injEq]
    exact ⟨by omega, by ring, by ring, True.intro⟩

theorem entriesFor_length (chunks : List Str) (ds : List ℚ) (idx : ℕ) (t : ℚ) :
    (entriesFor chunks ds idx t).length = chunks.length := by
  simp [entriesFor]

theorem Chained_mono (t t' : ℚ) (es : List SubtitleEntry) (h : t' ≤ t) :
    Chained t es → Chained t' es := by
  cases es with
  | nil => intro _; trivial
  | cons e es => exact fun hc => ⟨le_trans h hc.1, hc.2⟩

theorem lastEndD_nil (t : ℚ) : lastEndD t [] = t := rfl

theorem lastEndD_cons (t : ℚ) (e : SubtitleEntry) (es : List SubtitleEntry) :
    lastEndD t (e :: es) = lastEndD e.end_time es := by
  cases es with
  | nil => rfl
  | cons f fs =>
    unfold lastEndD
    rw [List.getLast?_cons_cons]
    cases hg : (f :: fs).getLast? with
    | some x => rfl
    | none => exact absurd hg (by simp)

theorem lastEndD_append (t : ℚ) (A B : List SubtitleEntry) :
    lastEndD t (A ++ B) = lastEndD (lastEndD t A) B := by
  induction A generalizing t with
  | nil => simp [lastEndD_nil]
  | cons e A ih => simp only [List.cons_append, lastEndD_cons, ih]

theorem Chained_append (t : ℚ) (A B : List SubtitleEntry) :
    Chained t (A ++ B) ↔ Chained t A ∧ Chained (lastEndD t A) B := by
  induction A generalizing t with
  | nil =>
    simp only [List.nil_append, lastEndD_nil]
    constructor
    · intro h
      exact ⟨True.intro, h⟩
    · intro h
      exact h.2
  | cons e A ih =>
    simp only [List.cons_append, lastEndD_cons]
    constructor
    · intro h
      rcases h with ⟨h1, h2, h3⟩
      rcases (ih e.end_time).mp h3 with ⟨hA, hB⟩
      exact ⟨⟨h1, h2, hA⟩, hB⟩
    · intro h
      rcases h with ⟨⟨h1, h2, hA⟩, hB⟩
      exact ⟨h1, h2, (ih e.end_time).mpr ⟨hA, hB⟩⟩

theorem entriesFor_chained (cs : List Str) :
    ∀ (ds : List ℚ) (idx : ℕ) (t : ℚ), cs.length = ds.length →
      (∀ x ∈ ds, 0 ≤ x) → Chained t (entriesFor cs ds idx t) := by
  induction cs with
  | nil => intro ds idx t _ _; exact trivial
  | cons c cs ih =>
    intro ds idx t hlen hnn
    cases ds with
    | nil => simp at hlen
    | cons d ds =>
      rw [entriesFor_cons]
      have hd : 0 ≤ d := hnn d (List.mem_cons_self d ds)
      refine ⟨le_refl t, by simpa using hd, ?_⟩
      exact ih ds (idx + 1) (t + d) (by simpa using hlen)
        (fun x hx => hnn x (List.mem_cons_of_mem d hx))

theorem entriesFor_lastEnd (cs : List Str) :
    ∀ (ds : List ℚ) (idx : ℕ) (t : ℚ), cs.length = ds.length →
      lastEndD t (entriesFor cs ds idx t) = t + ds.sum := by
  induction cs with
  | nil =>
    intro ds idx t hlen
    cases ds with
    | nil => simp [entriesFor, lastEndD_nil]
    | cons d ds => simp at hlen
  | cons c cs ih =>
    intro ds idx t hlen
    cases ds with
    | nil => simp at hlen
    | cons d ds =>
      rw [entriesFor_cons, lastEndD_cons]
      show lastEndD (t + d) (entriesFor cs ds (idx + 1) (t + d)) = t + (d :: ds).sum
      rw [ih ds (idx + 1) (t + d) (by simpa using hlen), List.sum_cons]
      ring

theorem entriesFor_map_index (cs : List Str) (ds : List ℚ) (idx : ℕ) (t : ℚ) :
    (entriesFor cs ds idx t).map (fun e => e.index) = List.range' idx cs.length := by
  unfold entriesFor
  rw [List.map_map, List.range'_eq_map_range]
  rfl

theorem entriesFor_getD (cs : List Str) (ds : List ℚ) (idx : ℕ) (t : ℚ) (k : ℕ)
    (hk : k < cs.length) :
    (entriesFor cs ds idx t).getD k dummyEntry =
      { index := idx + k, start_time := t + (ds.take k).sum,
        end_time := t + (ds.take k).sum + ds.getD k 0, text := cs.getD k [] } := by
  unfold entriesFor
  rw [List.getD_eq_getElem?_getD, List.getElem?_map, List.getElem?_range hk]
  rfl

theorem entriesFor_consec (cs : List Str) (ds : List ℚ) (idx : ℕ) (t : ℚ) (k : ℕ)
    (hk : k + 1 < (entriesFor cs ds idx t).length) :
    ((entriesFor cs ds idx t).getD (k + 1) dummyEntry).start_time =
      ((entriesFor cs ds idx t).getD k dummyEntry).end_time := by
  rw [entriesFor_length] at hk
  rw [entriesFor_getD cs ds idx t (k + 1) hk, entriesFor_getD cs ds idx t k (by omega)]
  show t + (ds.take (k + 1)).sum = t + (ds.take k).sum + ds.getD k 0
  rw [take_succ_sum]
  ring

theorem entriesFor_head (cs : List Str) (ds : List ℚ) (idx : ℕ) (t : ℚ) (h : cs ≠ []) :
    ∀ e, (entriesFor cs ds idx t).head? = some e → e.start_time = t := by
  intro e he
  have hlen : 0 < cs.length := List.length_pos.mpr h
  unfold entriesFor at he
  rw [List.head?_eq_getElem?, List.getElem?_map, List.getElem?_range hlen] at he
  simp only [Option.map_some, Option.map_some', Option.some.injEq] at he
  subst he
  simp

theorem lastEndD_mono (t t' : ℚ) (es : List SubtitleEntry) (h : t' ≤ t) :
    lastEndD t' es ≤ lastEndD t es := by
  cases es with
  | nil => simpa [lastEndD_nil] using h
  | cons e es => rw [lastEndD_cons, lastEndD_cons]

theorem range'_append_one (s m n : ℕ) :
    List.range' s m ++ List.range' (s + m) n = List.range' s (m + n) := by
  induction m generalizing s with
  | zero => simp
  | succ m ih =>
    rw [List.range'_succ, Nat.succ_add, List.range'_succ, List.cons_append]
    rw [show s + (m + 1) = s + 1 + m by omega, ih (s + 1)]

theorem genAux_props (l : List (Scene × ℚ)) :
    ∀ (idx : ℕ) (t : ℚ), (∀ p ∈ l, 0 ≤ p.2) →
      Chained t (generate_subtitlesAux l idx t) ∧
      (generate_subtitlesAux l idx t).map (fun e => e.index) =
        List.range' idx (generate_subtitlesAux l idx t).length ∧
      lastEndD t (generate_subtitlesAux l idx t) ≤ t + (l.map Prod.snd).sum := by
  induction l with
  | nil =>
    intro idx t _
    exact ⟨True.intro, rfl, by simp [generate_subtitlesAux, lastEndD_nil]⟩
  | cons p rest ih =>
    intro idx t hnn
    obtain ⟨scene, d⟩ := p
    have hd : (0 : ℚ) ≤ d := hnn (scene, d) (List.mem_cons_self _ _)
    have hrest : ∀ q ∈ rest, (0 : ℚ) ≤ q.2 := fun q hq => hnn q (List.mem_cons_of_mem _ hq)
    by_cases hw : scene.words = []
    · have heq : generate_subtitlesAux ((scene, d) :: rest) idx t =
          generate_subtitlesAux rest idx (t + d) := by
        simp only [generate_subtitlesAux]
        rw [if_pos hw]
      rcases ih idx (t + d) hrest with ⟨h1, h2, h3⟩
      rw [heq]
      refine ⟨Chained_mono (t + d) t _ (by linarith) h1, h2, ?_⟩
      have hm := lastEndD_mono (t + d) t (generate_subtitlesAux rest idx (t + d))
        (by linarith)
      simp only [List.map_cons, List.sum_cons]
      linarith
    · have hchunks : sceneChunks scene ≠ [] := sceneChunks_ne_nil scene hw
      set cs := sceneChunks scene with hcs
      set ds := chunkDurations (cs.map List.length) d with hds
      have heq : generate_subtitlesAux ((scene, d) :: rest) idx t =
          entriesFor cs ds idx t ++ generate_subtitlesAux rest (idx + cs.length) (t + d) := by
        simp only [generate_subtitlesAux]
        rw [if_neg hw]
      have hlen : cs.length = ds.length := by
        rw [hds, chunkDurations_length, List.length_map]
      have hdnn : ∀ x ∈ ds, (0 : ℚ) ≤ x := chunkDurations_nonneg _ d hd
      have hsum : ds.sum = d := chunkDurations_sum _ d (by simpa using hchunks)
      have hlastA : lastEndD t (entriesFor cs ds idx t) = t + d := by
        rw [entriesFor_lastEnd cs ds idx t hlen, hsum]
      rcases ih (idx + cs.length) (t + d) hrest with ⟨hB1, hB2, hB3⟩
      rw [heq]
      refine ⟨?_, ?_, ?_⟩
      · rw [Chained_append, hlastA]
        exact ⟨entriesFor_chained cs ds idx t hlen hdnn, hB1⟩
      · rw [List.map_append, entriesFor_map_index, hB2, List.length_append,
          entriesFor_length]
        exact range'_append_one idx cs.length _
      · rw [lastEndD_append, hlastA]
        simp only [List.map_cons, List.sum_cons]
        linarith

theorem genAux_eq_flatten (l : List (Scene × ℚ)) :
    ∀ (idx : ℕ) (t : ℚ), generate_subtitlesAux l idx t = (sceneGroups l idx t).flatten := by
  induction l with
  | nil => intro idx t; rfl
  | cons p rest ih =>
    intro idx t
    obtain ⟨scene, d⟩ := p
    by_cases hw : scene.words = []
    · simp only [generate_subtitlesAux, sceneGroups]
      rw [if_pos hw, if_pos hw, List.flatten_cons, List.nil_append]
      exact ih idx (t + d)
    · simp only [generate_subtitlesAux, sceneGroups]
      rw [if_neg hw, if_neg hw, List.flatten_cons]
      rw [ih (idx + (sceneChunks scene).length) (t + d)]

theorem sceneGroups_shape (l : List (Scene × ℚ)) :
    ∀ (idx : ℕ) (t : ℚ) (g : List SubtitleEntry), g ∈ sceneGroups l idx t →
      g = [] ∨ ∃ cs ds i2 t2, g = entriesFor cs ds i2 t2 := by
  induction l with
  | nil => intro idx t g hg; simp [sceneGroups] at hg
  | cons p rest ih =>
    intro idx t g hg
    obtain ⟨scene, d⟩ := p
    by_cases hw : scene.words = []
    · simp only [sceneGroups] at hg
      rw [if_pos hw] at hg
      rcases List.mem_cons.mp hg with rfl | hg2
      · exact Or.inl rfl
      · exact ih _ _ g hg2
    · simp only [sceneGroups] at hg
      rw [if_neg hw] at hg
      rcases List.mem_cons.mp hg with rfl | hg2
      · exact Or.inr ⟨_, _, _, _, rfl⟩
      · exact ih _ _ g hg2

theorem sceneGroups_head (l : List (Scene × ℚ)) :
    ∀ (idx : ℕ) (t : ℚ) (j : ℕ) (e : SubtitleEntry),
      ((sceneGroups l idx t).getD j []).head? = some e →
      e.start_time = t + ((l.map Prod.snd).take j).sum := by
  induction l with
  | nil => intro idx t j e he; simp [sceneGroups] at he
  | cons p rest ih =>
    intro idx t j e he
    obtain ⟨scene, d⟩ := p
    cases j with
    | zero =>
      by_cases hw : scene.words = []
      · simp only [sceneGroups] at he
        rw [if_pos hw] at he
        simp at he
      · simp only [sceneGroups] at he
        rw [if_neg hw] at he
        simp only [List.getD_cons_zero] at he
        have := entriesFor_head _ _ idx t (sceneChunks_ne_nil scene hw) e he
        simpa using this
    | succ j =>
      have hstep : ∃ idx2, (sceneGroups ((scene, d) :: rest) idx t).getD (j + 1) [] =
          (sceneGroups rest idx2 (t + d)).getD j [] := by
        by_cases hw : scene.words = []
        · refine ⟨idx, ?_⟩
          simp only [sceneGroups]
          rw [if_pos hw, List.getD_cons_succ]
        · refine ⟨idx + (sceneChunks scene).length, ?_⟩
          simp only [sceneGroups]
          rw [if_neg hw, List.getD_cons_succ]
      rcases hstep with ⟨idx2, hstep⟩
      rw [hstep] at he
      have := ih idx2 (t + d) j e he
      simp only [List.map_cons, List.take_succ_cons, List.sum_cons]
      linarith

theorem sceneGroups_consec (l : List (Scene × ℚ)) (idx : ℕ) (t : ℚ) (j k : ℕ)
    (hk : k + 1 < ((sceneGroups l idx t).getD j []).length) :
    (((sceneGroups l idx t).getD j []).getD (k + 1) dummyEntry).start_time =
      (((sceneGroups l idx t).getD j []).getD k dummyEntry).end_time := by
  by_cases hj : j < (sceneGroups l idx t).length
  · have hget : (sceneGroups l idx t).getD j [] ∈ sceneGroups l idx t := by
      rw [List.getD_eq_getElem?_getD, List.getElem?_eq_getElem hj]
      exact List.getElem_mem _
    rcases sceneGroups_shape l idx t _ hget with hnil | ⟨cs, ds, i2, t2, hg⟩
    · rw [hnil] at hk
      simp at hk
    · rw [hg] at hk ⊢
      exact entriesFor_consec cs ds i2 t2 k hk
  · push_neg at hj
    rw [List.getD_eq_default _ _ (by simpa using hj)] at hk
    simp at hk

theorem take_map_snd_zip (j : ℕ) :
    ∀ (a : List Scene) (b : List ℚ), j < (a.zip b).length →
      ((a.zip b).map Prod.snd).take j = b.take j := by
  induction j with
  | zero => intro a b _; simp
  | succ j ih =>
    intro a b hj
    cases a with
    | nil => simp at hj
    | cons x a =>
      cases b with
      | nil => simp at hj
      | cons y b =>
        simp only [List.zip_cons_cons, List.map_cons, List.take_succ_cons]
        have hj2 : j < (a.zip b).length := by
          simp only [List.length_zip, List.length_cons] at hj ⊢
          omega
        rw [ih a b hj2]

theorem Chained_start_le_end (es : List SubtitleEntry) :
    ∀ (t : ℚ), Chained t es → ∀ k, k < es.length →
      (es.getD k dummyEntry).start_time ≤ (es.getD k dummyEntry).end_time := by
  induction es with
  | nil => intro t _ k hk; simp at hk
  | cons e es ih =>
    intro t hc k hk
    cases k with
    | zero => simpa using hc.2.1
    | succ k =>
      exact ih e.end_time hc.2.2 k (by simpa using hk)

theorem Chained_consec_le (es : List SubtitleEntry) :
    ∀ (t : ℚ), Chained t es → ∀ k, k + 1 < es.length →
      (es.getD k dummyEntry).end_time ≤ (es.getD (k + 1) dummyEntry).start_time := by
  induction es with
  | nil => intro t _ k hk; simp at hk
  | cons e es ih =>
    intro t hc k hk
    cases k with
    | zero =>
      cases es with
      | nil => simp at hk
      | cons f fs =>
        simp only [List.getD_cons_zero, List.getD_cons_succ]
        exact hc.2.2.1
    | succ k =>
      exact ih e.end_time hc.2.2 k (by simpa using hk)

/-- C2: the output of `generate_subtitles` carries one-based consecutive
indices spanning all scenes, is time-ordered and non-overlapping, decomposes
into per-scene groups in which each entry starts exactly at the previous
entry's end time, each scene's group starts at the cumulative sum of the
preceding scenes' externally supplied audio durations, and the two-scene
boundary-alignment example with durations [2, 3] gives start times [0, 2] and
end times [2, 5] exactly. -/
theorem C2_subtitle_global_timing (scenes : List Scene) (durs : List ℚ)
    (hnn : ∀ d ∈ durs, (0 : ℚ) ≤ d) :
    ((generate_subtitles scenes durs).map (fun e => e.index) =
      List.range' 1 (generate_subtitles scenes durs).length) ∧
    (∀ k, k < (generate_subtitles scenes durs).length →
      ((generate_subtitles scenes durs).getD k dummyEntry).start_time ≤
        ((generate_subtitles scenes durs).getD k dummyEntry).end_time) ∧
    (∀ k, k + 1 < (generate_subtitles scenes durs).length →
      ((generate_subtitles scenes durs).getD k dummyEntry).end_time ≤
        ((generate_subtitles scenes durs).getD (k + 1) dummyEntry).start_time) ∧
    generate_subtitles scenes durs = (sceneGroups (scenes.zip durs) 1 0).flatten ∧
    (∀ j k, k + 1 < ((sceneGroups (scenes.zip durs) 1 0).getD j []).length →
      (((sceneGroups (scenes.zip durs) 1 0).getD j []).getD (k + 1) dummyEntry).start_time =
        (((sceneGroups (scenes.zip durs) 1 0).getD j []).getD k dummyEntry).end_time) ∧
    (∀ j, j < (scenes.zip durs).length →
      ∀ e, ((sceneGroups (scenes.zip durs) 1 0).getD j []).head? = some e →
        e.start_time = (durs.take j).sum) ∧
    ((generate_subtitles [exSceneA, exSceneB] [2, 3]).map (fun e => e.start_time) = [0, 2] ∧
      (generate_subtitles [exSceneA, exSceneB] [2, 3]).map (fun e => e.end_time) = [2, 5]) := by
  have hz : ∀ p ∈ scenes.zip durs, (0 : ℚ) ≤ p.2 :=
    fun p hp => hnn p.2 (List.of_mem_zip hp).2
  rcases genAux_props (scenes.zip durs) 1 0 hz with ⟨hch, hidx, -⟩
  refine ⟨hidx, ?_, ?_, genAux_eq_flatten (scenes.zip durs) 1 0, ?_, ?_, ?_, ?_⟩
  · intro k hk
    exact Chained_start_le_end (generate_subtitlesAux (scenes.zip durs) 1 0) 0 hch k hk
  · intro k hk
    exact Chained_consec_le (generate_subtitlesAux (scenes.zip durs) 1 0) 0 hch k hk
  · intro j k hk
    exact sceneGroups_consec (scenes.zip durs) 1 0 j k hk
  · intro j hj e he
    have hh := sceneGroups_head (scenes.zip durs) 1 0 j e he
    rw [take_map_snd_zip j scenes durs hj] at hh
    rw [hh]
    ring
  · with_unfolding_all decide
  · with_unfolding_all decide

theorem C2_subtitle_global_timing_witness :
    (generate_subtitles [exSceneA, exSceneB] [2, 3]).map (fun e => e.index) =
      List.range' 1 (generate_subtitles [exSceneA, exSceneB] [2, 3]).length :=
  (C2_subtitle_global_timing [exSceneA, exSceneB] [2, 3] (by with_unfolding_all decide)).1

/- ### C5: split_into_scenes shape -/

theorem dropWhile_head_false (p : Char → Bool) (l : Str) (c : Char) (t : Str)
    (h : l.dropWhile p = c :: t) : p c = false := by
  induction l with
  | nil => simp at h
  | cons a l ih =>
    rw [List.dropWhile_cons] at h
    by_cases hp : p a = true
    · rw [if_pos hp] at h
      exact ih h
    · rw [if_neg hp] at h
      rcases h with ⟨rfl, -⟩
      simpa using hp

theorem dropWhile_eq_drop (p : Char → Bool) (l : Str) :
    l.dropWhile p = l.drop ((l.takeWhile p).length) := by
  induction l with
  | nil => rfl
  | cons a l ih =>
    rw [List.dropWhile_cons, List.takeWhile_cons]
    by_cases hp : p a = true
    · rw [if_pos hp, if_pos hp, List.length_cons, List.drop_succ_cons, ih]
    · rw [if_neg hp, if_neg hp]
      rfl

theorem stripChars_eq_take (l : Str) :
    ∃ n, stripChars l = (l.dropWhile isSpace).take n := by
  unfold stripChars
  refine ⟨(l.dropWhile isSpace).length - (((l.dropWhile isSpace).reverse.takeWhile isSpace).length), ?_⟩
  rw [dropWhile_eq_drop isSpace (l.dropWhile isSpace).reverse,
    ← List.rdrop_eq_reverse_drop_reverse]
  rfl

theorem stripChars_head (l : Str) (h : stripChars l ≠ []) :
    ∃ c t, stripChars l = c :: t ∧ isSpace c = false := by
  rcases stripChars_eq_take l with ⟨n, hn⟩
  cases hu : l.dropWhile isSpace with
  | nil => rw [hu] at hn; simp at hn; exact absurd hn h
  | cons c u =>
    have hc : isSpace c = false := dropWhile_head_false isSpace l c u hu
    rw [hu] at hn
    cases n with
    | zero => rw [hn] at h; simp at h
    | succ n =>
      rw [List.take_succ_cons] at hn
      exact ⟨c, u.take n, hn, hc⟩

theorem splitWsAux_words (s : Str) :
    ∀ acc, (∀ c ∈ acc, isSpace c = false) →
      ∀ w ∈ splitWsAux s acc, w ≠ [] ∧ ∀ c ∈ w, isSpace c = false := by
  induction s with
  | nil =>
    intro acc hacc w hw
    by_cases ha : acc = []
    · simp [splitWsAux, ha] at hw
    · simp only [splitWsAux, if_neg ha, List.mem_singleton] at hw
      subst hw
      refine ⟨by simpa using ha, ?_⟩
      intro c hc
      exact hacc c (List.mem_reverse.mp hc)
  | cons a s ih =>
    intro acc hacc w hw
    by_cases hsp : isSpace a = true
    · by_cases ha : acc = []
      · simp only [splitWsAux, if_pos hsp, if_pos ha] at hw
        exact ih [] (by simp) w hw
      · simp only [splitWsAux, if_pos hsp, if_neg ha, List.mem_cons] at hw
        rcases hw with rfl | hw2
        · refine ⟨by simpa using ha, ?_⟩
          intro c hc
          exact hacc c (List.mem_reverse.mp hc)
        · exact ih [] (by simp) w hw2
    · simp only [splitWsAux, if_neg hsp] at hw
      refine ih (a :: acc) ?_ w hw
      intro c hc
      rcases List.mem_cons.mp hc with rfl | hc2
      · simpa using hsp
      · exact hacc c hc2

theorem splitWs_words (s : Str) :
    ∀ w ∈ splitWs s, w ≠ [] ∧ ∀ c ∈ w, isSpace c = false :=
  splitWsAux_words s [] (by simp)

theorem splitWsAux_ne_nil (s : Str) :
    ∀ acc, (∃ c ∈ s, isSpace c = false) ∨ acc ≠ [] → splitWsAux s acc ≠ [] := by
  induction s with
  | nil =>
    intro acc h
    rcases h with ⟨c, hc, -⟩ | ha
    · simp at hc
    · simp [splitWsAux, if_neg ha]
  | cons a s ih =>
    intro acc h
    by_cases hsp : isSpace a = true
    · have hs : (∃ c ∈ s, isSpace c = false) ∨ acc ≠ [] → True := fun _ => True.intro
      by_cases ha : acc = []
      · simp only [splitWsAux, if_pos hsp, if_pos ha]
        refine ih [] (Or.inl ?_)
        rcases h with ⟨c, hc, hcf⟩ | hacc
        · rcases List.mem_cons.mp hc with rfl | hc2
          · rw [hsp] at hcf; exact absurd hcf (by simp)
          · exact ⟨c, hc2, hcf⟩
        · exact absurd ha hacc
      · simp [splitWsAux, if_pos hsp, if_neg ha]
    · simp only [splitWsAux, if_neg hsp]
      exact ih (a :: acc) (Or.inr (by simp))

theorem splitWs_ne_nil (s : Str) (h : ∃ c ∈ s, isSpace c = false) : splitWs s ≠ [] :=
  splitWsAux_ne_nil s [] (Or.inl h)

theorem splitWsAux_first (s : Str) :
    ∀ acc, acc ≠ [] → ∃ w rest2, splitWsAux s acc = (acc.reverse ++ w) :: rest2 := by
  induction s with
  | nil =>
    intro acc ha
    exact ⟨[], [], by simp [splitWsAux, if_neg ha]⟩
  | cons a s ih =>
    intro acc ha
    by_cases hsp : isSpace a = true
    · exact ⟨[], splitWsAux s [], by simp [splitWsAux, if_pos hsp, if_neg ha]⟩
    · rcases ih (a :: acc) (by simp) with ⟨w, rest2, hw⟩
      refine ⟨a :: w, rest2, ?_⟩
      simp only [splitWsAux, if_neg hsp]
      rw [hw, List.reverse_cons, List.append_assoc]
      rfl

theorem splitWs_first (c : Char) (rest : Str) (hc : isSpace c = false) :
    ∃ w ws, splitWs (c :: rest) = (c :: w) :: ws := by
  have hstep : splitWs (c :: rest) = splitWsAux rest [c] := by
    show splitWsAux (c :: rest) [] = splitWsAux rest [c]
    rw [splitWsAux, if_neg (by simpa using hc)]
  rcases splitWsAux_first rest [c] (by simp) with ⟨w, ws, hw⟩
  exact ⟨w, ws, by rw [hstep, hw]; rfl⟩

theorem joinSep_contentful (sep : Char) (l : List Str)
    (h : ∃ x ∈ l, ∃ c ∈ x, isSpace c = false) :
    ∃ c ∈ joinSep sep l, isSpace c = false := by
  induction l with
  | nil => simp at h
  | cons w ws ih =>
    rcases h with ⟨x, hx, c, hc, hcf⟩
    rw [joinSep_eq]
    rcases List.mem_cons.mp hx with rfl | hx2
    · exact ⟨c, List.mem_append_left _ hc, hcf⟩
    · cases ws with
      | nil => simp at hx2
      | cons b t =>
        rcases ih ⟨x, hx2, c, hc, hcf⟩ with ⟨c2, hc2, hc2f⟩
        rw [joinSep_eq] at hc2
        refine ⟨c2, ?_, hc2f⟩
        rcases List.mem_append.mp hc2 with h1 | h1
        · refine List.mem_append_right _ ?_
          simp only [restJoin, List.map_cons, List.flatten_cons]
          exact List.mem_append_left _ (List.mem_cons_of_mem _ h1)
        · refine List.mem_append_right _ ?_
          simp only [restJoin, List.map_cons, List.flatten_cons]
          exact List.mem_append_right _ h1

theorem hasContent_iff (s : Str) : hasContent s = true ↔ ∃ c ∈ s, isSpace c = false := by
  simp [hasContent]

theorem pyTake_pos_head {α : Type} (k : ℤ) (c : α) (rest : List α) (hk : 0 < k) :
    ∃ t, pyTake k (c :: rest) = c :: t := by
  unfold pyTake
  rw [if_neg (by omega)]
  obtain ⟨n, hn⟩ : ∃ n : ℕ, k.toNat = n + 1 := ⟨k.toNat - 1, by omega⟩
  exact ⟨rest.take n, by rw [hn, List.take_succ_cons]⟩

theorem pyInt_cpm90_pos : 0 < pyInt ((90 / 60 : ℚ) * DEFAULT_CPM) := by
  with_unfolding_all decide

theorem pyInt_wpm90_pos : 0 < pyInt ((90 / 60 : ℚ) * DEFAULT_WPM) := by
  with_unfolding_all decide

theorem truncate_head (c : Char) (rest : Str) (d : ℚ)
    (hc : isSpace c = false)
    (hC : 0 < pyInt ((d / 60) * DEFAULT_CPM))
    (hW : 0 < pyInt ((d / 60) * DEFAULT_WPM)) :
    ∃ r2, truncate_to_duration (c :: rest) d = c :: r2 := by
  simp only [truncate_to_duration]
  by_cases hfit : estimate_duration (c :: rest) ≤ d
  · rw [if_pos hfit]
    exact ⟨rest, rfl⟩
  · rw [if_neg hfit]
    have htr : ∃ t, (if _is_cjk_dominant (c :: rest) = true then
        pyTake (pyInt ((d / 60) * DEFAULT_CPM)) (c :: rest)
      else joinSep ' ' (pyTake (pyInt ((d / 60) * DEFAULT_WPM)) (splitWs (c :: rest)))) =
        c :: t := by
      by_cases hcjk : _is_cjk_dominant (c :: rest) = true
      · rw [if_pos hcjk]
        exact pyTake_pos_head _ c rest hC
      · rw [if_neg hcjk]
        rcases splitWs_first c rest hc with ⟨w, ws, hws⟩
        rw [hws]
        rcases pyTake_pos_head _ (c :: w) ws hW with ⟨t2, ht2⟩
        rw [ht2, joinSep_eq]
        exact ⟨w ++ restJoin ' ' t2, rfl⟩
    rcases htr with ⟨t, ht⟩
    rw [ht]
    by_cases hsnap : (((c :: t).length / 2 : ℕ) : ℤ) <
        max (max (rfindChar (c :: t) '。') (rfindChar (c :: t) '.'))
          (max (rfindChar (c :: t) '！') (rfindChar (c :: t) '？'))
    · rw [if_pos hsnap]
      exact pyTake_pos_head _ c t (by omega)
    · rw [if_neg hsnap]
      exact ⟨t, rfl⟩

theorem splitAfterPunctAux_flatten (s : Str) :
    ∀ acc, (splitAfterPunctAux s acc).flatten = acc.reverse ++ s := by
  induction s with
  | nil => intro acc; simp [splitAfterPunctAux]
  | cons c rest ih =>
    intro acc
    by_cases hp : jpSplitPunct.contains c = true
    · simp only [splitAfterPunctAux, if_pos hp, List.flatten_cons, ih []]
      simp
    · simp only [splitAfterPunctAux, if_neg hp, ih (c :: acc)]
      simp

theorem filter_nonempty_of_flatten {α : Type} (L : List (List α)) (h : L.flatten ≠ []) :
    L.filter (fun p => !p.isEmpty) ≠ [] := by
  intro hf
  apply h
  rw [List.flatten_eq_nil_iff]
  intro x hx
  by_contra hxne
  have hmem : x ∈ L.filter (fun p => !p.isEmpty) :=
    List.mem_filter.mpr ⟨hx, by simpa using hxne⟩
  rw [hf] at hmem
  simp at hmem

theorem resplitFuel_ne_nil (f : ℕ) (p : Str) (hp : p ≠ []) : resplitFuel f p ≠ [] := by
  cases f with
  | zero => simp [resplitFuel, if_neg hp]
  | succ f =>
    by_cases h20 : 20 < p.length
    · simp [resplitFuel, if_pos h20]
    · simp [resplitFuel, if_neg h20, if_neg hp]

theorem mergeStep_ne_nil (merged : List Str) (c : Str) : mergeStep merged c ≠ [] := by
  unfold mergeStep
  by_cases h : c.length ≤ 3 ∧ (merged.getLastD []).length + c.length ≤ 22
  · rw [if_pos h]; simp
  · rw [if_neg h]; simp

theorem mergeFold_ne_nil (rest : List Str) :
    ∀ init : List Str, init ≠ [] → rest.foldl mergeStep init ≠ [] := by
  induction rest with
  | nil => intro init h; exact h
  | cons a t ih => intro init h; exact ih (mergeStep init a) (mergeStep_ne_nil init a)

theorem mergeShortChunks_ne_nil (l : List Str) (h : l ≠ []) : mergeShortChunks l ≠ [] := by
  cases l with
  | nil => exact absurd rfl h
  | cons c0 r => exact mergeFold_ne_nil r [c0] (by simp)

theorem split_for_subtitles_ne_nil (s : Str) (h : hasContent s = true) :
    _split_for_subtitles s ≠ [] := by
  rcases (hasContent_iff s).mp h with ⟨c, hcs, hcf⟩
  simp only [_split_for_subtitles]
  by_cases hcjk : _is_cjk_dominant s = true
  · rw [if_pos hcjk]
    have hclean : s.filter (fun c => !(isSpace c)) ≠ [] := by
      intro he
      have hm : c ∈ s.filter (fun c => !(isSpace c)) :=
        List.mem_filter.mpr ⟨hcs, by simp [hcf]⟩
      rw [he] at hm
      simp at hm
    have hflat : (splitAfterPunct (s.filter (fun c => !(isSpace c)))).flatten =
        s.filter (fun c => !(isSpace c)) := by
      rw [splitAfterPunct, splitAfterPunctAux_flatten]
      rfl
    have hparts : (splitAfterPunct (s.filter (fun c => !(isSpace c)))).filter
        (fun p => !p.isEmpty) ≠ [] :=
      filter_nonempty_of_flatten _ (by rw [hflat]; exact hclean)
    have hchunks : ((((splitAfterPunct (s.filter (fun c => !(isSpace c)))).filter
        (fun p => !p.isEmpty)).map resplit)).flatten ≠ [] := by
      cases hp : (splitAfterPunct (s.filter (fun c => !(isSpace c)))).filter
          (fun p => !p.isEmpty) with
      | nil => exact absurd hp hparts
      | cons p0 ps =>
        have hp0 : p0 ∈ (splitAfterPunct (s.filter (fun c => !(isSpace c)))).filter
            (fun p => !p.isEmpty) := by rw [hp]; simp
        have hp0ne : p0 ≠ [] := by simpa using (List.mem_filter.mp hp0).2
        intro hfl
        rw [List.flatten_eq_nil_iff] at hfl
        exact resplitFuel_ne_nil p0.length p0 hp0ne (hfl (resplit p0) (by simp [resplit]))
    by_cases hlen : 1 < ((((splitAfterPunct (s.filter (fun c => !(isSpace c)))).filter
        (fun p => !p.isEmpty)).map resplit)).flatten.length
    · rw [if_pos hlen]
      exact mergeShortChunks_ne_nil _ hchunks
    · rw [if_neg hlen]
      exact hchunks
  · rw [if_neg hcjk]
    exact splitWs_ne_nil s ⟨c, hcs, hcf⟩

theorem stripChars_hasContent (l : Str) (h : stripChars l ≠ []) :
    hasContent (stripChars l) = true := by
  rcases stripChars_head l h with ⟨c, t, hct, hcf⟩
  rw [hct]
  exact (hasContent_iff _).mpr ⟨c, by simp, hcf⟩

theorem mapStrip_filter_content (L : List Str) :
    ∀ x ∈ (L.map stripChars).filter (fun p => !p.isEmpty), hasContent x = true := by
  intro x hx
  rcases List.mem_filter.mp hx with ⟨hmem, hne⟩
  rcases List.mem_map.mp hmem with ⟨y, hy, hxy⟩
  subst hxy
  exact stripChars_hasContent y (by simpa using hne)

theorem split_into_paragraphs_content (text : Str) :
    ∀ x ∈ _split_into_paragraphs text, hasContent x = true := by
  intro x hx
  simp only [_split_into_paragraphs] at hx
  exact mapStrip_filter_content _ x hx

theorem split_into_sentences_content (text : Str) :
    ∀ x ∈ _split_into_sentences text, hasContent x = true := by
  intro x hx
  simp only [_split_into_sentences] at hx
  exact mapStrip_filter_content _ x hx

theorem hasContent_append_of_right (a b : Str) (h : hasContent b = true) :
    hasContent (a ++ b) = true := by
  rcases (hasContent_iff b).mp h with ⟨c, hc, hcf⟩
  exact (hasContent_iff _).mpr ⟨c, List.mem_append_right a hc, hcf⟩

theorem hasContent_cons_of (a : Char) (b : Str) (h : hasContent b = true) :
    hasContent (a :: b) = true := by
  rcases (hasContent_iff b).mp h with ⟨c, hc, hcf⟩
  exact (hasContent_iff _).mpr ⟨c, List.mem_cons_of_mem a hc, hcf⟩

theorem getLastD_mem_of_ne_nil (l : List Str) (h : l ≠ []) : l.getLastD [] ∈ l := by
  cases l using List.reverseRecOn with
  | nil => exact absurd rfl h
  | append_singleton A y => simp [List.getLastD_concat]

theorem mergeSegStep_inv (m : ℕ) (merged : List Str) (seg : Str)
    (h1 : merged ≠ []) (h2 : ∀ x ∈ merged, hasContent x = true)
    (h3 : hasContent seg = true) :
    mergeSegStep m merged seg ≠ [] ∧
      ∀ x ∈ mergeSegStep m merged seg, hasContent x = true := by
  unfold mergeSegStep
  by_cases hcond : _segment_length (merged.getLastD []) < m
  · rw [if_pos hcond]
    refine ⟨by simp, ?_⟩
    intro x hx
    rcases List.mem_append.mp hx with hx1 | hx1
    · exact h2 x (List.dropLast_subset merged hx1)
    · rw [List.mem_singleton] at hx1
      subst hx1
      exact hasContent_append_of_right _ _ (hasContent_cons_of _ _ h3)
  · rw [if_neg hcond]
    refine ⟨by simp, ?_⟩
    intro x hx
    rcases List.mem_append.mp hx with hx1 | hx1
    · exact h2 x hx1
    · rw [List.mem_singleton] at hx1
      subst hx1
      exact h3

theorem mergeSegFold_inv (m : ℕ) (rest : List Str) :
    ∀ init : List Str, init ≠ [] → (∀ x ∈ init, hasContent x = true) →
      (∀ x ∈ rest, hasContent x = true) →
      rest.foldl (mergeSegStep m) init ≠ [] ∧
        ∀ x ∈ rest.foldl (mergeSegStep m) init, hasContent x = true := by
  induction rest with
  | nil => intro init h1 h2 _; exact ⟨h1, h2⟩
  | cons a t ih =>
    intro init h1 h2 h3
    have ha := h3 a (by simp)
    have hstep := mergeSegStep_inv m init a h1 h2 ha
    exact ih (mergeSegStep m init a) hstep.1 hstep.2
      (fun x hx => h3 x (List.mem_cons_of_mem a hx))

theorem merge_short_segments_props (segs : List Str) (h0 : segs ≠ [])
    (hc : ∀ x ∈ segs, hasContent x = true) :
    _merge_short_segments segs ≠ [] ∧
      ∀ x ∈ _merge_short_segments segs, hasContent x = true := by
  cases segs with
  | nil => exact absurd rfl h0
  | cons s0 rest =>
    simp only [_merge_short_segments]
    have hfold := mergeSegFold_inv (_min_segment_size ((s0 :: rest).flatten)) rest [s0]
      (by simp)
      (by
        intro x hx
        rw [List.mem_singleton] at hx
        rw [hx]
        exact hc s0 (by simp))
      (fun x hx => hc x (List.mem_cons_of_mem s0 hx))
    set merged := rest.foldl (mergeSegStep (_min_segment_size ((s0 :: rest).flatten))) [s0]
      with hm
    by_cases hcond : 1 < merged.length ∧
        _segment_length (merged.getLastD []) < _min_segment_size ((s0 :: rest).flatten)
    · rw [if_pos hcond]
      refine ⟨by simp, ?_⟩
      intro x hx
      rcases List.mem_append.mp hx with hx1 | hx1
      · exact hfold.2 x (List.dropLast_subset _ (List.dropLast_subset _ hx1))
      · rw [List.mem_singleton] at hx1
        subst hx1
        refine hasContent_append_of_right _ _ (hasContent_cons_of _ _ ?_)
        exact hfold.2 _ (getLastD_mem_of_ne_nil merged hfold.1)
    · rw [if_neg hcond]
      exact hfold

theorem pyInt_of_nonneg (q : ℚ) (h : 0 ≤ q) : pyInt q = Int.floor q := by
  rw [pyInt, if_neg (not_lt.mpr h)]

theorem floor_group_bounds (L i : ℕ) (hL : 6 < L) (hi : i < 6) :
    (pyInt ((i : ℚ) * ((L : ℚ) / ((6 : ℕ) : ℚ)))).toNat <
      (pyInt (((i : ℚ) + 1) * ((L : ℚ) / ((6 : ℕ) : ℚ)))).toNat ∧
      (pyInt (((i : ℚ) + 1) * ((L : ℚ) / ((6 : ℕ) : ℚ)))).toNat ≤ L := by
  have h6 : (0 : ℚ) < ((6 : ℕ) : ℚ) := by norm_num
  set q : ℚ := (L : ℚ) / ((6 : ℕ) : ℚ) with hq
  have hq1 : 1 ≤ q := by
    rw [hq, le_div_iff₀ h6, one_mul]
    exact_mod_cast hL.le
  have hq0 : 0 ≤ q := le_trans zero_le_one hq1
  have hiq : (0 : ℚ) ≤ (i : ℚ) * q := mul_nonneg (by positivity) hq0
  have hi1q : (0 : ℚ) ≤ ((i : ℚ) + 1) * q := mul_nonneg (by positivity) hq0
  rw [pyInt_of_nonneg _ hiq, pyInt_of_nonneg _ hi1q]
  have hstep : Int.floor ((i : ℚ) * q) + 1 ≤ Int.floor (((i : ℚ) + 1) * q) := by
    have hle : (i : ℚ) * q + 1 ≤ ((i : ℚ) + 1) * q := by nlinarith [hq1]
    calc Int.floor ((i : ℚ) * q) + 1 = Int.floor ((i : ℚ) * q + 1) :=
          (Int.floor_add_one _).symm
      _ ≤ Int.floor (((i : ℚ) + 1) * q) := Int.floor_le_floor hle
  have hub : Int.floor (((i : ℚ) + 1) * q) ≤ (L : ℤ) := by
    have h1 : ((i : ℚ) + 1) * q ≤ ((6 : ℕ) : ℚ) * q := by
      refine mul_le_mul_of_nonneg_right ?_ hq0
      exact_mod_cast Nat.succ_le_of_lt hi
    have h2 : ((6 : ℕ) : ℚ) * q = (L : ℚ) := by
      rw [hq]
      exact mul_div_cancel₀ _ (ne_of_gt h6)
    calc Int.floor (((i : ℚ) + 1) * q) ≤ Int.floor ((L : ℚ)) :=
          Int.floor_le_floor (by rw [← h2]; exact h1)
      _ = (L : ℤ) := Int.floor_natCast L
  have h0 : 0 ≤ Int.floor ((i : ℚ) * q) := Int.floor_nonneg.mpr hiq
  omega

theorem pySlice_props {α : Type} (l : List α) (a b : ℕ) (hab : a < b) (hb : b ≤ l.length) :
    pySlice l a b ≠ [] ∧ ∀ x ∈ pySlice l a b, x ∈ l := by
  constructor
  · have hlen : (pySlice l a b).length = min (b - a) (l.length - a) := by
      simp [pySlice]
    intro hnil
    rw [hnil] at hlen
    simp at hlen
    omega
  · intro x hx
    exact List.drop_subset a l (List.take_subset _ _ hx)

theorem sceneSegments_props (c : Char) (rest : Str) (hc : isSpace c = false) :
    sceneSegments (c :: rest) 90 ≠ [] ∧
      ∀ x ∈ sceneSegments (c :: rest) 90, hasContent x = true := by
  obtain ⟨tr, htr⟩ := truncate_head c rest 90 hc pyInt_cpm90_pos pyInt_wpm90_pos
  have htc : hasContent (truncate_to_duration (c :: rest) 90) = true := by
    rw [htr]
    exact (hasContent_iff _).mpr ⟨c, by simp, hc⟩
  simp only [sceneSegments]
  set tx := truncate_to_duration (c :: rest) 90 with htxdef
  set s1 := _split_into_paragraphs tx with hs1
  set s2 := (if s1.length < 3 then (s1.map _split_into_sentences).flatten else s1) with hs2
  set s3 := (if s2.length < 2 then [tx] else s2) with hs3
  have h2c : ∀ x ∈ s2, hasContent x = true := by
    rw [hs2]
    by_cases h3c : s1.length < 3
    · rw [if_pos h3c]
      intro x hx
      rcases List.mem_flatten.mp hx with ⟨l, hl, hxl⟩
      rcases List.mem_map.mp hl with ⟨p, hp, hpl⟩
      subst hpl
      exact split_into_sentences_content p x hxl
    · rw [if_neg h3c]
      intro x hx
      rw [hs1] at hx
      exact split_into_paragraphs_content tx x hx
  have h3props : s3 ≠ [] ∧ ∀ x ∈ s3, hasContent x = true := by
    rw [hs3]
    by_cases h2l : s2.length < 2
    · rw [if_pos h2l]
      refine ⟨by simp, ?_⟩
      intro x hx
      rw [List.mem_singleton] at hx
      rw [hx]
      simpa [htxdef] using htc
    · rw [if_neg h2l]
      refine ⟨?_, h2c⟩
      intro hnil
      rw [hnil] at h2l
      simp at h2l
  by_cases htar : min 6 (max 3 s3.length) < s3.length
  · rw [if_pos htar]
    have h6 : 6 < s3.length := by omega
    have htar6 : min 6 (max 3 s3.length) = 6 := by omega
    rw [htar6]
    apply merge_short_segments_props
    · simp
    · intro y hy
      rcases List.mem_map.mp hy with ⟨i, hi, hyi⟩
      rw [List.mem_range] at hi
      have hb := floor_group_bounds s3.length i h6 hi
      have hsl := pySlice_props s3 _ _ hb.1 hb.2
      rw [← hyi, hasContent_iff]
      refine joinSep_contentful '\x0a' _ ?_
      rcases List.exists_mem_of_ne_nil _ hsl.1 with ⟨x0, hx0⟩
      exact ⟨x0, hx0, (hasContent_iff x0).mp (h3props.2 x0 (hsl.2 x0 hx0))⟩
  · rw [if_neg htar]
    exact merge_short_segments_props s3 h3props.1 h3props.2

theorem scenesFromSegs_length (st : Option Str) (segs : List Str) :
    ∀ i0, (scenesFromSegs st i0 segs).length = segs.length := by
  induction segs with
  | nil => intro i0; rfl
  | cons s t ih => intro i0; simp [scenesFromSegs, ih (i0 + 1)]

theorem scenesFromSegs_index (st : Option Str) (segs : List Str) :
    ∀ i0 k, k < segs.length →
      ((scenesFromSegs st i0 segs).getD k dummyScene).index = i0 + k := by
  induction segs with
  | nil => intro i0 k hk; simp at hk
  | cons s t ih =>
    intro i0 k hk
    cases k with
    | zero => rfl
    | succ k =>
      rw [show scenesFromSegs st i0 (s :: t) =
        mkScene i0 s (generate_image_prompt s st) [] [] none none ::
          scenesFromSegs st (i0 + 1) t from rfl, List.getD_cons_succ]
      rw [ih (i0 + 1) k (by simpa using hk)]
      omega

theorem scenesFromSegs_mem (st : Option Str) (segs : List Str) :
    ∀ i0 sc, sc ∈ scenesFromSegs st i0 segs →
      ∃ seg ∈ segs, sc.narration_text = seg ∧ sc.words = _split_for_subtitles seg := by
  induction segs with
  | nil => intro i0 sc hsc; simp [scenesFromSegs] at hsc
  | cons s t ih =>
    intro i0 sc hsc
    rw [show scenesFromSegs st i0 (s :: t) =
      mkScene i0 s (generate_image_prompt s st) [] [] none none ::
        scenesFromSegs st (i0 + 1) t from rfl] at hsc
    rcases List.mem_cons.mp hsc with rfl | h2
    · exact ⟨s, by simp, rfl, by simp [mkScene]⟩
    · rcases ih (i0 + 1) sc h2 with ⟨seg, hseg, h3, h4⟩
      exact ⟨seg, List.mem_cons_of_mem s hseg, h3, h4⟩

/-- C5: for every input text that is non-empty after trimming, `split_into_scenes`
(at its default 90-second budget and default image style) succeeds with a
non-empty scene list whose `index` fields are exactly 0, 1, 2, … in list order,
and every returned scene has non-empty `narration_text` and a non-empty `words`
sequence. -/
theorem C5_split_into_scenes_shape (text : Str) (h : stripChars text ≠ []) :
    ∃ scenes, split_into_scenes text 90 none = Except.ok scenes ∧ scenes ≠ [] ∧
      (∀ k, k < scenes.length → (scenes.getD k dummyScene).index = k) ∧
      ∀ sc ∈ scenes, sc.narration_text ≠ [] ∧ sc.words ≠ [] := by
  obtain ⟨c, rest, hcr, hc⟩ := stripChars_head text h
  have hprops := sceneSegments_props c rest hc
  rw [← hcr] at hprops
  refine ⟨scenesFromSegs none 0 (sceneSegments (stripChars text) 90), ?_, ?_, ?_, ?_⟩
  · simp only [split_into_scenes]
    rw [if_neg h]
  · intro hnil
    have hlen := scenesFromSegs_length none (sceneSegments (stripChars text) 90) 0
    rw [hnil] at hlen
    simp only [List.length_nil] at hlen
    exact hprops.1 (List.length_eq_zero.mp hlen.symm)
  · intro k hk
    have hlen := scenesFromSegs_length none (sceneSegments (stripChars text) 90) 0
    rw [hlen] at hk
    have hidx := scenesFromSegs_index none (sceneSegments (stripChars text) 90) 0 k hk
    simpa using hidx
  · intro sc hsc
    rcases scenesFromSegs_mem none (sceneSegments (stripChars text) 90) 0 sc hsc with
      ⟨seg, hseg, hnar, hwords⟩
    have hcseg := hprops.2 seg hseg
    constructor
    · rw [hnar]
      rcases (hasContent_iff seg).mp hcseg with ⟨c2, hc2, -⟩
      exact List.ne_nil_of_mem hc2
    · rw [hwords]
      exact split_for_subtitles_ne_nil seg hcseg

theorem C5_split_into_scenes_shape_witness :
    stripChars "hi".toList ≠ [] ∧
      ∃ scenes, split_into_scenes "hi".toList 90 none = Except.ok scenes ∧ scenes ≠ [] ∧
        (∀ k, k < scenes.length → (scenes.getD k dummyScene).index = k) ∧
        ∀ sc ∈ scenes, sc.narration_text ≠ [] ∧ sc.words ≠ [] :=
  ⟨by decide, C5_split_into_scenes_shape "hi".toList (by decide)⟩
